import Mathlib

/-!
Shallow embedding of `smic180bcd_cdl_fixer.c` (netlist post-processor).

Modelling conventions:
* C `double` values are modelled by `RVal`: either NaN, a signed infinity, or an
  exact rational.  Arithmetic follows IEEE-754 semantics for the special values
  (every comparison involving NaN is false, division of a nonzero finite value
  by zero yields a signed infinity, `0/0` yields NaN, and so on); finite
  arithmetic is exact rational arithmetic.
* C strings / lines are `List Char`.
* `printf "%g"` is modelled by `gFormat` (round to 6 significant decimal
  digits, fixed notation for decimal exponents in `[-4, 6)`, scientific
  notation otherwise, trailing zeros stripped), `gFormatR` extends it with the
  glibc renderings `nan` / `inf` / `-inf`.
-/

attribute [local semireducible] Rat.add Rat.mul Rat.inv Rat.sub Rat.ofScientific

/-- Model of a C `double`: NaN, a signed infinity (`inf true` is `-∞`),
or an exact rational value. -/
inductive RVal where
  | nan : RVal
  | inf : Bool → RVal
  | val : ℚ → RVal
deriving DecidableEq

/-- IEEE negation. -/
def RVal.negv : RVal → RVal
  | .nan => .nan
  | .inf s => .inf (!s)
  | .val q => .val (-q)

/-- IEEE addition (∞ + (-∞) = NaN). -/
def RVal.add : RVal → RVal → RVal
  | .nan, _ => .nan
  | _, .nan => .nan
  | .inf s, .inf t => if s = t then .inf s else .nan
  | .inf s, .val _ => .inf s
  | .val _, .inf t => .inf t
  | .val a, .val b => .val (a + b)

/-- IEEE subtraction. -/
def RVal.sub (x y : RVal) : RVal := RVal.add x (RVal.negv y)

/-- IEEE multiplication (∞ · 0 = NaN). -/
def RVal.mul : RVal → RVal → RVal
  | .nan, _ => .nan
  | _, .nan => .nan
  | .inf s, .inf t => .inf (xor s t)
  | .inf s, .val b => if b = 0 then .nan else .inf (xor s (decide (b < 0)))
  | .val a, .inf t => if a = 0 then .nan else .inf (xor t (decide (a < 0)))
  | .val a, .val b => .val (a * b)

/-- IEEE division (finite/∞ = 0, nonzero/0 = ±∞, 0/0 = NaN). -/
def RVal.div : RVal → RVal → RVal
  | .nan, _ => .nan
  | _, .nan => .nan
  | .inf _, .inf _ => .nan
  | .inf s, .val b => .inf (xor s (decide (b < 0)))
  | .val _, .inf _ => .val 0
  | .val a, .val b =>
    if b = 0 then (if a = 0 then .nan else .inf (decide (a < 0))) else .val (a / b)

/-- IEEE `<=` as a boolean: any comparison involving NaN is false. -/
def RVal.leb : RVal → RVal → Bool
  | .nan, _ => false
  | _, .nan => false
  | .inf s, .inf t => s || !t
  | .inf s, .val _ => s
  | .val _, .inf t => !t
  | .val a, .val b => decide (a ≤ b)

/-- IEEE `<` as a boolean: any comparison involving NaN is false. -/
def RVal.ltb : RVal → RVal → Bool
  | .nan, _ => false
  | _, .nan => false
  | .inf s, .inf t => s && !t
  | .inf s, .val _ => s
  | .val _, .inf t => !t
  | .val a, .val b => decide (a < b)

/-- `fabs`. -/
def RVal.fabs : RVal → RVal
  | .nan => .nan
  | .inf _ => .inf false
  | .val a => .val |a|

/-- Exact rational square root, when it exists. -/
def ratSqrt (a : ℚ) : Option ℚ :=
  let sn := Nat.sqrt a.num.toNat
  let sd := Nat.sqrt a.den
  if ((sn * sn : ℕ) : ℤ) = a.num ∧ (sd * sd : ℕ) = a.den then some ((sn : ℚ) / (sd : ℚ))
  else none

/-- Model of C `sqrt` on embedded values: NaN for negative or NaN arguments
(as in IEEE), `+∞ ↦ +∞`, and the exact square root when it is rational.
A nonnegative rational whose square root is irrational is mapped to `nan`;
this case is a placeholder for the irrational double produced by the C
library and is never reached by any theorem in this file (they evaluate
`sqrtv` only at negative or perfect-square arguments). -/
def RVal.sqrtv : RVal → RVal
  | .nan => .nan
  | .inf s => if s then .nan else .inf false
  | .val a =>
    if a < 0 then .nan
    else match ratSqrt a with
      | some r => .val r
      | none => .nan

/-- Integer power of ten as a rational. -/
def pow10 (n : ℤ) : ℚ := (10 : ℚ) ^ n

/-! ### Decimal digit helpers for the `%g` model -/

/-- Value of a most-significant-first decimal digit list. -/
def msdVal (ds : List ℕ) : ℕ := ds.foldl (fun a d => 10 * a + d) 0

/-- Little-endian decimal digits with explicit fuel (kernel-reducible). -/
def digitsAuxM : ℕ → ℕ → List ℕ
  | _, 0 => []
  | 0, _ => []
  | fuel + 1, n => (n % 10) :: digitsAuxM fuel (n / 10)

/-- Decimal digits of `n`, most significant first (empty for `0`). -/
def natDigitsM (n : ℕ) : List ℕ := (digitsAuxM n n).reverse

/-- `⌊log₁₀ n⌋` on naturals with explicit fuel (kernel-reducible). -/
def log10Aux : ℕ → ℕ → ℕ
  | 0, _ => 0
  | fuel + 1, n => if n < 10 then 0 else log10Aux fuel (n / 10) + 1

/-- `⌊log₁₀ n⌋` for `1 ≤ n` (0 for `n = 0`). -/
def natLog10 (n : ℕ) : ℕ := log10Aux n n

/-- Render a digit list as characters. -/
def renderDigits (ds : List ℕ) : List Char := ds.map Nat.digitChar

/-- Strip trailing zero digits. -/
def stripZeros (ds : List ℕ) : List ℕ := (ds.reverse.dropWhile (fun d => d = 0)).reverse

/-- Round to nearest integer, halves up (standing in for the binary rounding
performed by `%g`; the theorems below never evaluate it at a tie). -/
def rnd (x : ℚ) : ℤ := ⌊x + 1 / 2⌋

/-- `⌊log₁₀ a⌋` for a positive rational. -/
def ratLog10 (a : ℚ) : ℤ :=
  let e0 : ℤ := (natLog10 a.num.toNat : ℤ) - (natLog10 a.den : ℤ) - 1
  if (10 : ℚ) ^ (e0 + 1) ≤ a then e0 + 1 else e0

/-- Exponent digits of `%e` style output: at least two digits. -/
def expDigits (m : ℕ) : List Char :=
  if m < 10 then ['0', Nat.digitChar m] else renderDigits (natDigitsM m)

/-- Fixed-notation rendering of the 6-significant-digit mantissa `n`
(`100000 ≤ n ≤ 999999` in every use) at decimal exponent `X`. -/
def fixedRender (n : ℕ) (X : ℤ) : List Char :=
  let ds := natDigitsM n
  if 0 ≤ X then
    let ip := ds.take (X.toNat + 1)
    let fp := stripZeros (ds.drop (X.toNat + 1))
    renderDigits ip ++ (if fp = [] then [] else '.' :: renderDigits fp)
  else
    let fp := stripZeros ds
    '0' :: '.' :: (List.replicate ((-X).toNat - 1) '0' ++ renderDigits fp)

/-- Scientific-notation rendering of mantissa `n` at decimal exponent `X`. -/
def sciRender (n : ℕ) (X : ℤ) : List Char :=
  let ds := natDigitsM n
  let fp := stripZeros (ds.drop 1)
  renderDigits (ds.take 1) ++ (if fp = [] then [] else '.' :: renderDigits fp) ++
    'e' :: (if X < 0 then '-' else '+') :: expDigits X.natAbs

/-- `%g` for a positive rational: round to 6 significant digits, choose fixed
or scientific notation from the post-rounding decimal exponent. -/
def gFormatPos (a : ℚ) : List Char :=
  let X := ratLog10 a
  let n := rnd (a * (10 : ℚ) ^ (5 - X))
  let p : ℕ × ℤ := if n = 1000000 then (100000, X + 1) else (n.toNat, X)
  if -4 ≤ p.2 ∧ p.2 < 6 then fixedRender p.1 p.2 else sciRender p.1 p.2

/-- `printf "%g"` model for finite values. -/
def gFormat (q : ℚ) : List Char :=
  if q = 0 then ['0'] else (if q < 0 then ['-'] else []) ++ gFormatPos |q|

/-- `printf "%g"` model including the special values. -/
def gFormatR : RVal → List Char
  | .nan => ['n', 'a', 'n']
  | .inf true => ['-', 'i', 'n', 'f']
  | .inf false => ['i', 'n', 'f']
  | .val q => gFormat q

/-! ### SI unit codec (`si_to_double`, `double_to_si`) -/

/-- C `isspace` (default locale). -/
def isSpaceC (c : Char) : Bool :=
  c = ' ' || c = '\t' || c = '\n' || c = '\x0d' || c = '\x0b' || c = '\x0c'

/-- Numeric value of a list of decimal digit characters, most significant
first (the fold a C scanner performs). -/
def digitsVal (cs : List Char) : ℕ := cs.foldl (fun a c => 10 * a + (c.toNat - 48)) 0

/-- Head-character test of the scanner. -/
def headIs (c : Char) : List Char → Bool
  | [] => false
  | x :: _ => x = c

/-- The decimal-exponent stage of a `%lf` conversion, positioned after a
nonempty mantissa of value `mant`.  Per C17 §7.21.6.2 the input item is the
longest input prefix that is a prefix of some `strtod` subject sequence, and
the directive fails — with no backtracking — when that item is not itself a
subject sequence.  So an `e`/`E` marker (with its optional sign) is pulled
into the item, and when no digit follows the whole conversion is a matching
failure (the classic `100ergs` behavior: `"2E"` and `"2e+"` fail even though
`"2"` alone would scan). -/
def scanExpStage (mant : ℚ) (s3 : List Char) : Option (ℚ × List Char) :=
  if headIs 'e' s3 || headIs 'E' s3 then
    let t1 := if headIs '-' s3.tail || headIs '+' s3.tail then s3.tail.tail else s3.tail
    let ed := t1.takeWhile Char.isDigit
    if ed = [] then none
    else
      some (mant * (10 : ℚ) ^
          (if headIs '-' s3.tail then -(digitsVal ed : ℤ) else (digitsVal ed : ℤ)),
        t1.dropWhile Char.isDigit)
  else some (mant, s3)

/-- Decimal form of a `%lf` item, positioned after whitespace and sign:
integer digits, optional fraction, then the exponent stage.  With no digit
at all (the item is at most a sign and a dot) the conversion fails. -/
def scanDecTail (s1 : List Char) : Option (ℚ × List Char) :=
  let ip := s1.takeWhile Char.isDigit
  let s2 := s1.dropWhile Char.isDigit
  let fp := if headIs '.' s2 then s2.tail.takeWhile Char.isDigit else []
  let s3 := if headIs '.' s2 then s2.tail.dropWhile Char.isDigit else s2
  if ip = [] ∧ fp = [] then none
  else scanExpStage ((digitsVal ip : ℚ) + (digitsVal fp : ℚ) / (10 : ℚ) ^ fp.length) s3

/-- C `isxdigit`. -/
def isHexDigitC (c : Char) : Bool :=
  c.isDigit || (decide ('a' ≤ c) && decide (c ≤ 'f')) || (decide ('A' ≤ c) && decide (c ≤ 'F'))

/-- Value of a hexadecimal digit character. -/
def hexDigitVal (c : Char) : ℕ :=
  if c.isDigit then c.toNat - 48 else if decide ('a' ≤ c) then c.toNat - 87 else c.toNat - 55

/-- Value of a list of hexadecimal digit characters, most significant
first. -/
def hexVal (cs : List Char) : ℕ := cs.foldl (fun a c => 16 * a + hexDigitVal c) 0

/-- The binary-exponent stage (`p`/`P`) of a hexadecimal `%lf` item, with
the same commit-then-fail discipline as `scanExpStage`. -/
def scanHexExpStage (mant : ℚ) (s3 : List Char) : Option (ℚ × List Char) :=
  if headIs 'p' s3 || headIs 'P' s3 then
    let t1 := if headIs '-' s3.tail || headIs '+' s3.tail then s3.tail.tail else s3.tail
    let ed := t1.takeWhile Char.isDigit
    if ed = [] then none
    else
      some (mant * (2 : ℚ) ^
          (if headIs '-' s3.tail then -(digitsVal ed : ℤ) else (digitsVal ed : ℤ)),
        t1.dropWhile Char.isDigit)
  else some (mant, s3)

/-- Hexadecimal form of a `%lf` item, positioned after the committed
`0x`/`0X` prefix (the exponent part is optional in `strtod`): `"0xz"` is a
matching failure, not a scan of `0`. -/
def scanHexTail (s1 : List Char) : Option (ℚ × List Char) :=
  let ip := s1.takeWhile isHexDigitC
  let s2 := s1.dropWhile isHexDigitC
  let fp := if headIs '.' s2 then s2.tail.takeWhile isHexDigitC else []
  let s3 := if headIs '.' s2 then s2.tail.dropWhile isHexDigitC else s2
  if ip = [] ∧ fp = [] then none
  else scanHexExpStage ((hexVal ip : ℚ) + (hexVal fp : ℚ) / (16 : ℚ) ^ fp.length) s3

/-- The finite forms of `sscanf(s, "%lf", ...)`: skip whitespace, optional
sign, then — committed by the longest-prefix input-item rule — the
hexadecimal form when `0x`/`0X` follows, the decimal form otherwise.
Returns the exact value and the unconsumed remainder (the exact binary
double is replaced by the exact rational value), `none` on a matching
failure.  The `inf`/`nan` forms are handled by `scanSpecial` below. -/
def scanNum (s : List Char) : Option (ℚ × List Char) :=
  let s0 := s.dropWhile isSpaceC
  let signNeg : Bool := headIs '-' s0
  let s1 := if headIs '-' s0 || headIs '+' s0 then s0.tail else s0
  let body := if headIs '0' s1 && (headIs 'x' s1.tail || headIs 'X' s1.tail)
    then scanHexTail s1.tail.tail else scanDecTail s1
  body.map (fun p => ((if signNeg then -1 else 1) * p.1, p.2))

/-- Length of the longest case-insensitive match of the (lowercase) pattern
against the front of the input. -/
def matchCI : List Char → List Char → ℕ
  | p :: ps, c :: cs =>
    if c = p || decide (c.toNat + 32 = p.toNat) then 1 + matchCI ps cs else 0
  | _, _ => 0

/-- The `inf`/`infinity`/`nan`/`nan(n-char-sequence)` forms of `%lf`
(case-insensitive), positioned after whitespace and sign.  The input-item
rule applies: a partial match such as `"infin"` or an unclosed `"nan("` is
a matching failure. -/
def scanSpecial (neg : Bool) (s1 : List Char) : Option (RVal × List Char) :=
  if headIs 'i' s1 || headIs 'I' s1 then
    let k := matchCI (("infinity").toList) s1
    if k = 8 then some (RVal.inf neg, s1.drop 8)
    else if k = 3 then some (RVal.inf neg, s1.drop 3)
    else none
  else if headIs 'n' s1 || headIs 'N' s1 then
    if matchCI (("nan").toList) s1 = 3 then
      let r := s1.drop 3
      if headIs '(' r then
        let r2 := r.tail.dropWhile (fun c => c.isAlphanum || c = '_')
        if headIs ')' r2 then some (RVal.nan, r2.tail) else none
      else some (RVal.nan, r)
    else none
  else none

/-- The special forms of `%lf` from the top of the string: skip whitespace
and sign, then try `scanSpecial`. -/
def scanSpecialTop (s : List Char) : Option (RVal × List Char) :=
  let s0 := s.dropWhile isSpaceC
  let neg := headIs '-' s0
  let s1 := if headIs '-' s0 || headIs '+' s0 then s0.tail else s0
  scanSpecial neg s1

/-- The full `%lf` directive.  A string whose first character after
whitespace and sign is `i`/`I`/`n`/`N` contains no digit and no dot at that
position, so `scanNum` fails on it and the two layers never overlap:
matching the finite scan first and falling back to the special forms is
exactly the one-pass directive. -/
def scanLf (s : List Char) : Option (RVal × List Char) :=
  match scanNum s with
  | some p => some (RVal.val p.1, p.2)
  | none => scanSpecialTop s

/-- The 20-entry multiplier table of `si_to_double`, in source order. -/
def si_units : List (List Char × ℚ) :=
  [(['y'], pow10 (-24)), (['z'], pow10 (-21)), (['a'], pow10 (-18)), (['f'], pow10 (-15)),
   (['p'], pow10 (-12)), (['n'], pow10 (-9)), (['u'], pow10 (-6)), (['m'], pow10 (-3)),
   (['c'], pow10 (-2)), (['d'], pow10 (-1)), (['d', 'a'], pow10 1), (['h'], pow10 2),
   (['k'], pow10 3), (['M'], pow10 6), (['G'], pow10 9), (['T'], pow10 12),
   (['P'], pow10 15), (['E'], pow10 18), (['Z'], pow10 21), (['Y'], pow10 24)]

/-- First table entry whose unit string equals `tok` (the `strcmp` scan). -/
def lookupUnit (tok : List Char) : Option ℚ :=
  match si_units.find? (fun p => p.1 == tok) with
  | some p => some p.2
  | none => none

/-- `si_to_double`: scan `"%lf%s"`; NaN when the `%lf` conversion fails
(which, by the input-item rule, includes a literal directly followed by a
dangling exponent marker, such as `"2E"`); otherwise scale by the
multiplier of the trailing `%s` token when that token is in the table, and
return the raw value otherwise.  (When the `%s` conversion finds no token
the C `unit` buffer stays uninitialized; the intended and almost-sure
behavior — no match — is modelled.  A token longer than two characters
overflows the `char unit[3]` buffer, undefined behavior; the model keeps
the whole token, which matches no table entry.) -/
def si_to_double (s : List Char) : RVal :=
  match scanLf s with
  | none => RVal.nan
  | some (v, rest) =>
    let tok := (rest.dropWhile isSpaceC).takeWhile (fun c => !isSpaceC c)
    if tok = [] then v
    else
      match lookupUnit tok with
      | some m => RVal.mul v (RVal.val m)
      | none => v

/-- The 20-entry divisor table of `double_to_si`, in source (descending)
order. -/
def si_divisors : List (List Char × ℚ) :=
  [(['Y'], pow10 24), (['Z'], pow10 21), (['E'], pow10 18), (['P'], pow10 15),
   (['T'], pow10 12), (['G'], pow10 9), (['M'], pow10 6), (['k'], pow10 3),
   (['h'], pow10 2), (['d', 'a'], pow10 1), (['d'], pow10 (-1)), (['c'], pow10 (-2)),
   (['m'], pow10 (-3)), (['u'], pow10 (-6)), (['n'], pow10 (-9)), (['p'], pow10 (-12)),
   (['f'], pow10 (-15)), (['a'], pow10 (-18)), (['z'], pow10 (-21)), (['y'], pow10 (-24))]

/-- The scan of `double_to_si`: first entry whose divisor is at most `a`
(and is not 1, mirroring the dead `divisor != 1` test of the source). -/
def siScan : List (List Char × ℚ) → RVal → Option (List Char × ℚ)
  | [], _ => none
  | (u, d) :: rest, a => if RVal.leb (RVal.val d) a && decide (d ≠ 1) then some (u, d) else siScan rest a

/-- `double_to_si`: render `value/divisor` with `%g` followed by the unit of
the first fitting divisor, falling back to plain `%g`. -/
def double_to_si (v : RVal) : List Char :=
  match siScan si_divisors (RVal.fabs v) with
  | some (u, d) => gFormatR (RVal.div v (RVal.val d)) ++ u
  | none => gFormatR v

/-! ### Line store (`split_buffer`, `join_lines`) -/

/-- Segments of a buffer delimited by `'\n'`, empty segments kept (the final
segment is the text after the last newline, possibly empty).  This is the
specification-side notion of the lines of a buffer. -/
def linesOf : List Char → List (List Char)
  | [] => [[]]
  | c :: cs =>
    if c = '\n' then [] :: linesOf cs
    else
      match linesOf cs with
      | [] => [[c]]
      | l :: ls => (c :: l) :: ls

/-- The character walk of `split_buffer`: accumulate the current segment
(reversed) and emit it at each newline or at the end when nonempty. -/
def splitAux (cur : List Char) : List Char → List (List Char)
  | [] => if cur = [] then [] else [cur.reverse]
  | c :: cs =>
    if c = '\n' then
      if cur = [] then splitAux [] cs else cur.reverse :: splitAux [] cs
    else splitAux (c :: cur) cs

/-- `split_buffer`: split on newlines, dropping zero-length segments. -/
def split_buffer (b : List Char) : List (List Char) := splitAux [] b

/-- `join_lines`: each line followed by a newline. -/
def join_lines : List (List Char) → List Char
  | [] => []
  | l :: ls => l ++ '\n' :: join_lines ls

/-! ### Header/Section Injector (`check_and_prepend`) -/

/-- Model of `regexec(pattern, s)` with `REG_EXTENDED | REG_NOSUB |
REG_NEWLINE` for the marker patterns `^<req>.*\n` (with `req` a literal
string, the escapes resolved): the subject must contain, at its start or
just after a newline, an occurrence of `req` followed by a run of
non-newline characters terminated by a newline.  Equivalently, some
newline-terminated segment of `s` starts with `req`.  Note the trailing
`\n` of the pattern: a segment not followed by a newline never matches. -/
def markerMatches (req : List Char) (s : List Char) : Bool :=
  ((linesOf s).dropLast).any (fun l => req.isPrefixOf l)

/-- `check_and_prepend`: scan every stored line for the pattern and prepend
`ins` when none matches. -/
def check_and_prepend (lines : List (List Char)) (req ins : List Char) : List (List Char) :=
  if lines.any (fun l => markerMatches req l) then lines else ins :: lines

/-- The 8 marker rules of `main` (`cdl_param_patterns`): literal requirement
of each regex (escapes resolved, trailing newline implicit in
`markerMatches`), paired with the string to prepend.  The last insert string
is `*.BIPOLA` exactly as in the source. -/
def cdl_param_patterns : List (List Char × List Char) :=
  [((".PARAM").toList, (".PARAM").toList),
   (("*.MEGA").toList, ("*.MEGA").toList),
   (("*.EQUATION").toList, ("*.EQUATION").toList),
   (("*.DIOAREA").toList, ("*.DIOAREA").toList),
   (("*.DIOPERI").toList, ("*.DIOPERI").toList),
   (("*.CAPVAL").toList, ("*.CAPVAL").toList),
   (("*.RESVAL").toList, ("*.RESVAL").toList),
   (("*.BIPOLAR").toList, ("*.BIPOLA").toList)]

/-- The marker-injection loop of `main`: apply `check_and_prepend` for the 8
rules in declared order. -/
def injectMarkers (lines : List (List Char)) : List (List Char) :=
  cdl_param_patterns.foldl (fun ls p => check_and_prepend ls p.1 p.2) lines

/-- The banner node prepended by `main` before marker injection (one stored
line containing embedded newlines). -/
def headerBlock : List Char :=
  ("\n************************************************************************\n* CDL netlist\n************************************************************************\n").toList

/-! ### Geometry Deriver (`process_list`) -/

/-- Existence of a match of the parenthesized group
`[0-9]+\.?[0-9]*[a-zA-Z]+` (or, with `lettersOpt`, `[a-zA-Z]*`) at the head
of `s`.  Greedy scanning is equivalent to POSIX matching for this pattern
shape. -/
def matchesGroup (lettersOpt : Bool) (s : List Char) : Bool :=
  let d1 := s.takeWhile Char.isDigit
  if d1 = [] then false
  else if lettersOpt then true
  else
    let r1 := s.dropWhile Char.isDigit
    let r2 := match r1 with | '.' :: t => t.dropWhile Char.isDigit | _ => r1
    match r2 with
    | c :: _ => c.isAlpha
    | [] => false

/-- POSIX leftmost match of `key(group)` where `key` is the literal part
(e.g. `w=`): first position where `key` occurs followed by a group match.
Returns the tail of the line from the start of the group — exactly the
pointer `line + matches[1].rm_so` handed to `si_to_double`. -/
def findField (key : List Char) (lettersOpt : Bool) : List Char → Option (List Char)
  | [] => none
  | c :: rest =>
    if key.isPrefixOf (c :: rest) && matchesGroup lettersOpt ((c :: rest).drop key.length)
    then some ((c :: rest).drop key.length)
    else findField key lettersOpt rest

/-- The `fw` step of `process_list` on one line: when both the `w=` and `l=`
patterns match, append `" fw="` followed by the SI rendering of
`w / fingers` (when the `fingers=` pattern matched) or of `w` alone.  The
parsed `l` value is never used. -/
def process_fw (line : List Char) : List Char :=
  match findField (("w=").toList) false line, findField (("l=").toList) false line with
  | some tw, some _ =>
    let w := si_to_double tw
    let fw :=
      match findField (("fingers=").toList) true line with
      | some tf => RVal.div w (si_to_double tf)
      | none => w
    line ++ (" fw=").toList ++ double_to_si fw
  | _, _ => line

/-- The area/perimeter step of `process_list` on one line: when both the
`area=` and `pj=` patterns match, guard on `pj·pj − 4·area < 0`, then solve
with `sqrt(pj·pj/4 − 4·area)`, skip when both roots are nonpositive, choose
the root pair with `l1 ≥ w1` first, and append `" w=<w> l=<l>"`. -/
def process_area (line : List Char) : List Char :=
  match findField (("area=").toList) false line, findField (("pj=").toList) false line with
  | some ta, some tp =>
    let area := si_to_double ta
    let pj := si_to_double tp
    let delta := RVal.sub (RVal.mul pj pj) (RVal.mul (RVal.val 4) area)
    if RVal.ltb delta (RVal.val 0) then line
    else
      let ds := RVal.sqrtv (RVal.sub (RVal.div (RVal.mul pj pj) (RVal.val 4)) (RVal.mul (RVal.val 4) area))
      let l1 := RVal.div (RVal.add (RVal.div pj (RVal.val 2)) ds) (RVal.val 2)
      let l2 := RVal.div (RVal.sub (RVal.div pj (RVal.val 2)) ds) (RVal.val 2)
      if RVal.leb l1 (RVal.val 0) && RVal.leb l2 (RVal.val 0) then line
      else
        let w1 := RVal.div area l1
        let w2 := RVal.div area l2
        if RVal.leb w1 l1 then
          line ++ (" w=").toList ++ double_to_si w1 ++ (" l=").toList ++ double_to_si l1
        else
          line ++ (" w=").toList ++ double_to_si w2 ++ (" l=").toList ++ double_to_si l2
  | _, _ => line

/-- One iteration of the `process_list` loop: the `fw` step, then the
area/perimeter step on the possibly extended line. -/
def process_line (line : List Char) : List Char := process_area (process_fw line)

/-- `process_list`: every line processed independently in place. -/
def process_list (lines : List (List Char)) : List (List Char) := lines.map process_line

/-! ### Pin-Info Annotator (`insert_pininfo`) -/

/-- A module table entry: module name and ordered pin list (pin name and
direction character, `'I'`/`'O'`/`'B'` as stored by the module-file
parser). -/
def ModuleTable : Type := List (List Char × List (List Char × Char))

/-- First module whose name equals `nm` (the `strcmp` walk with `break`);
returns its pin list. -/
def find_module (ms : ModuleTable) (nm : List Char) : Option (List (List Char × Char)) :=
  match ms.find? (fun m => m.1 == nm) with
  | some m => some m.2
  | none => none

/-- Token extracted by `sscanf(line + 7, "%127s", ...)`: skip whitespace,
then at most 127 non-whitespace characters. -/
def subcktToken (line : List Char) : List Char :=
  (((line.drop 7).dropWhile isSpaceC).takeWhile (fun c => !isSpaceC c)).take 127

/-- The `*.PININFO` line built by the `strcat` loop. -/
def pininfoLine (ps : List (List Char × Char)) : List Char :=
  ps.foldl (fun acc p => acc ++ ' ' :: (p.1 ++ [':', p.2])) (("*.PININFO").toList)

/-- `insert_pininfo`: the loop `while (head && head->next)` — so the last
stored line is never examined.  On a `.SUBCKT` line whose token is found
with a nonempty pin list: overwrite the next line when it already starts
with `*.PININFO`, otherwise insert the new line after.  In both cases the C
loop then advances onto the freshly written `*.PININFO` node; since that
node starts with `'*'` it can never match `.SUBCKT`, and the equations
below inline that one vacuous iteration. -/
def insert_pininfo (ms : ModuleTable) : List (List Char) → List (List Char)
  | [] => []
  | [x] => [x]
  | x :: y :: rest =>
    if ((".SUBCKT").toList).isPrefixOf x then
      match find_module ms (subcktToken x) with
      | some ps =>
        if ps = [] then x :: insert_pininfo ms (y :: rest)
        else if (("*.PININFO").toList).isPrefixOf y then
          x :: pininfoLine ps :: insert_pininfo ms rest
        else
          x :: pininfoLine ps :: insert_pininfo ms (y :: rest)
      | none => x :: insert_pininfo ms (y :: rest)
    else x :: insert_pininfo ms (y :: rest)

/-! ### Claim C1 — the `fw` append -/

/-- Claim C1: whenever the `w=` and `l=` field patterns both match a line,
the `fw` step appends exactly `" fw="` followed by the SI rendering of
`w / fingers` when a `fingers=` field was found and of `w` otherwise; the
parsed `l` value does not occur in the result.  In particular
`"M1 w=1.2u l=2u"` gains exactly `" fw=1.2u"` and
`"M2 w=2u l=1u fingers=2"` gains exactly `" fw=1u"`. -/
theorem C1_fw_append :
    (∀ line tw tl : List Char,
      findField (("w=").toList) false line = some tw →
      findField (("l=").toList) false line = some tl →
      process_fw line = line ++ (" fw=").toList ++ double_to_si
        (match findField (("fingers=").toList) true line with
         | some tf => RVal.div (si_to_double tw) (si_to_double tf)
         | none => si_to_double tw)) ∧
    process_fw (("M1 w=1.2u l=2u").toList) = ("M1 w=1.2u l=2u fw=1.2u").toList ∧
    process_fw (("M2 w=2u l=1u fingers=2").toList) = ("M2 w=2u l=1u fingers=2 fw=1u").toList := by
  refine ⟨fun line tw tl hw hl => ?_, by decide, by decide⟩
  simp only [process_fw, hw, hl]

/-- Witness for C1: the general statement applied to the line
`"M1 w=1.2u l=2u"`, whose `w=` and `l=` fields match. -/
theorem C1_fw_append_witness :
    process_fw (("M1 w=1.2u l=2u").toList) = ("M1 w=1.2u l=2u").toList ++ (" fw=").toList ++
      double_to_si (si_to_double (("1.2u l=2u").toList)) := by
  have h := C1_fw_append.1 (("M1 w=1.2u l=2u").toList) (("1.2u l=2u").toList) (("2u").toList)
    (by decide) (by decide)
  simpa using h

/-! ### Claim C2 — discriminant guard mismatch -/

/-- Claim C2 evaluated on the failing input `"D2 pj=4q area=2q"` (the suffix
`q` is unknown, so the values parse unscaled: `P = 4`, `A = 2`).  The
specification discriminant `P²/4 − 4A = -4` is negative, so the claim
demands that the line stay unchanged; but the source guards on
`P² − 4A = 8 ≥ 0`, reaches `sqrt(-4) = NaN`, and appends
`" w=nan l=nan"`. -/
theorem C2_guard_mismatch :
    findField (("pj=").toList) false (("D2 pj=4q area=2q").toList) = some (("4q area=2q").toList) ∧
    findField (("area=").toList) false (("D2 pj=4q area=2q").toList) = some (("2q").toList) ∧
    si_to_double (("4q area=2q").toList) = RVal.val 4 ∧
    si_to_double (("2q").toList) = RVal.val 2 ∧
    ((4 : ℚ) * 4 / 4 - 4 * 2 < 0) ∧
    process_line (("D2 pj=4q area=2q").toList) = ("D2 pj=4q area=2q w=nan l=nan").toList := by
  refine ⟨by decide, by decide, by decide, by decide, by norm_num, by decide⟩

/-! ### Claim C3 — `area=4u pj=8u` -/

/-- Claim C3 counterexample: the line `"D1 area=4u pj=8u"` does not gain
`" w=2u l=2u"`. -/
theorem C3_square_counterexample :
    process_line (("D1 area=4u pj=8u").toList) ≠
      ("D1 area=4u pj=8u").toList ++ (" w=2u l=2u").toList := by
  decide

/-- Claim C3 amended: with SI parsing, `area=4u` is `A = 4·10⁻⁶` and
`pj=8u` is `P = 8·10⁻⁶`; both the source guard `P² − 4A` and the
specification discriminant `P²/4 − 4A` are negative, so the derivation is
skipped and the line is unchanged. -/
theorem C3_area_pj_skip :
    si_to_double (("4u pj=8u").toList) = RVal.val (1 / 250000) ∧
    si_to_double (("8u").toList) = RVal.val (1 / 125000) ∧
    ((1 : ℚ) / 125000 * (1 / 125000) - 4 * (1 / 250000) < 0) ∧
    ((1 : ℚ) / 125000 * (1 / 125000) / 4 - 4 * (1 / 250000) < 0) ∧
    process_line (("D1 area=4u pj=8u").toList) = ("D1 area=4u pj=8u").toList := by
  refine ⟨by decide, by decide, by norm_num, by norm_num, by decide⟩

/-! ### Claim C4 — section-marker injection -/

/-- Claim C4 evaluated: the marker regexes end in a literal newline, but the
stored lines contain no newline, so `check_and_prepend` never finds a match
and always prepends.  With the banner node and the line `".PARAM X"` as
input, a bare `".PARAM"` is prepended anyway and the output carries two
`.PARAM` marker lines — while an input without any `.PARAM` line receives
exactly one.  The final rule also inserts the misspelled `"*.BIPOLA"`. -/
theorem C4_duplicate_marker :
    markerMatches ((".PARAM").toList) ((".PARAM X").toList) = false ∧
    check_and_prepend [(".PARAM X").toList] ((".PARAM").toList) ((".PARAM").toList) =
      [(".PARAM").toList, (".PARAM X").toList] ∧
    ((injectMarkers [headerBlock, (".PARAM X").toList]).filter
        (fun l => ((".PARAM").toList).isPrefixOf l)).length = 2 ∧
    ((injectMarkers [headerBlock, ("X1 foo bar").toList]).filter
        (fun l => ((".PARAM").toList).isPrefixOf l)).length = 1 ∧
    cdl_param_patterns.getLast? = some ((("*.BIPOLAR").toList, ("*.BIPOLA").toList)) := by
  refine ⟨by decide, by decide, by decide, by decide, by decide⟩

/-! ### Claim C5 — `si_to_double` semantics -/

/-- When the `%lf` conversion succeeds, `si_to_double` returns its value
scaled by the multiplier of the trailing token when known, and raw
otherwise (also when there is no trailing token at all). -/
theorem si_to_double_scan (s : List Char) (v : RVal) (rest : List Char)
    (h : scanLf s = some (v, rest)) :
    si_to_double s =
      match lookupUnit ((rest.dropWhile isSpaceC).takeWhile (fun c => !isSpaceC c)) with
      | some m => RVal.mul v (RVal.val m)
      | none => v := by
  simp only [si_to_double, h]
  by_cases htok : ((rest.dropWhile isSpaceC).takeWhile (fun c => !isSpaceC c)) = []
  · rw [if_pos htok, htok, show lookupUnit [] = none from by decide]
  · rw [if_neg htok]

/-- Every multiplier the table can return is positive. -/
theorem lookupUnit_pos (tok : List Char) (m : ℚ) (h : lookupUnit tok = some m) : 0 < m := by
  unfold lookupUnit at h
  cases hfind : si_units.find? (fun p => p.1 == tok) with
  | none => rw [hfind] at h; exact absurd h (by simp)
  | some p =>
    rw [hfind] at h
    have hmem : p ∈ si_units := List.mem_of_find?_eq_some hfind
    have hpos : ∀ q ∈ si_units, (0 : ℚ) < q.2 := by decide
    have hm : p.2 = m := by injection h
    rw [← hm]
    exact hpos p hmem

/-- Multiplying by a positive finite value preserves and reflects NaN. -/
theorem mul_val_nan (v : RVal) (m : ℚ) (hm : 0 < m) :
    RVal.mul v (RVal.val m) = RVal.nan ↔ v = RVal.nan := by
  cases v with
  | nan => simp [RVal.mul]
  | inf b => simp [RVal.mul, ne_of_gt hm]
  | val q => simp [RVal.mul]

/-- Claim C5 counterexample: the string `"2E"` begins with the decimal
literal `2` and its trailing symbol `E` is the table's exa multiplier, yet
the program returns NaN: the `sscanf` input item is the whole of `"2E"` (a
prefix of e.g. `"2E5"`), which is not itself a valid literal, so the `%lf`
conversion is a matching failure — there is no backtracking to `2`.  The
last conjunct contrasts the working path for a non-exponent unit. -/
theorem C5_exa_counterexample :
    si_to_double (("2E").toList) = RVal.nan ∧
    scanNum (("2").toList) = some (2, []) ∧
    lookupUnit (['E']) = some (pow10 18) ∧
    si_to_double (("2u").toList) = RVal.val (2 * pow10 (-6)) := by
  refine ⟨by decide, by decide, by decide, by decide⟩

/-- Claim C5 amended: `si_to_double` returns NaN exactly when the `%lf`
directive fails under the C input-item rule (longest prefix of a valid
literal, no backtracking — so also on a literal directly followed by a
dangling `e`/`E`, and on a bare `0x`) or when the scanned literal is itself
a `nan` form; a converted finite value is scaled by the matching multiplier
of the trailing token (case-sensitive: `m` is milli, `M` is mega, the
two-letter `da` is deka) and returned unscaled when the token matches no
table entry.  Hexadecimal literals are scanned as hex. -/
theorem C5_parse :
    (∀ s : List Char, si_to_double s = RVal.nan ↔
      (scanLf s = none ∨ ∃ rest, scanLf s = some (RVal.nan, rest))) ∧
    (∀ s (v : ℚ) rest, scanLf s = some (RVal.val v, rest) →
      (∀ m, lookupUnit ((rest.dropWhile isSpaceC).takeWhile (fun c => !isSpaceC c)) = some m →
        si_to_double s = RVal.val (v * m)) ∧
      (lookupUnit ((rest.dropWhile isSpaceC).takeWhile (fun c => !isSpaceC c)) = none →
        si_to_double s = RVal.val v)) ∧
    si_to_double (("1m").toList) = RVal.val (1 / 1000) ∧
    si_to_double (("1M").toList) = RVal.val 1000000 ∧
    si_to_double (("2da").toList) = RVal.val 20 ∧
    si_to_double (("2.5k").toList) = RVal.val 2500 ∧
    si_to_double (("7Q").toList) = RVal.val 7 ∧
    si_to_double (("2").toList) = RVal.val 2 ∧
    si_to_double (("abc").toList) = RVal.nan ∧
    si_to_double (("2 E").toList) = RVal.val (2 * pow10 18) ∧
    si_to_double (("0x10u").toList) = RVal.val (16 * pow10 (-6)) := by
  refine ⟨fun s => ?_, fun s v rest h => ?_, by decide, by decide, by decide, by decide,
    by decide, by decide, by decide, by decide, by decide⟩
  · constructor
    · intro hnan
      cases h : scanLf s with
      | none => exact Or.inl rfl
      | some p =>
        obtain ⟨v, rest⟩ := p
        right
        refine ⟨rest, ?_⟩
        rw [si_to_double_scan s v rest h] at hnan
        revert hnan
        cases hl : lookupUnit ((rest.dropWhile isSpaceC).takeWhile (fun c => !isSpaceC c)) with
        | some m =>
          intro hnan
          have hv := (mul_val_nan v m (lookupUnit_pos _ _ hl)).mp hnan
          rw [hv]
        | none =>
          intro hnan
          have hv : v = RVal.nan := hnan
          rw [hv]
    · intro hcase
      cases hcase with
      | inl h => simp [si_to_double, h]
      | inr h =>
        obtain ⟨rest, h⟩ := h
        rw [si_to_double_scan s RVal.nan rest h]
        cases hl : lookupUnit ((rest.dropWhile isSpaceC).takeWhile (fun c => !isSpaceC c)) with
        | some m => rfl
        | none => rfl
  · rw [si_to_double_scan s (RVal.val v) rest h]
    constructor
    · intro m hm
      rw [hm]
      rfl
    · intro hm
      rw [hm]

/-- Witness for C5: the conditional parts applied to the concrete input
`"1.2u l=2u"`, whose scan yields `6/5` with remainder `"u l=2u"` and token
`"u"`. -/
theorem C5_parse_witness :
    si_to_double (("1.2u l=2u").toList) = RVal.val (6 / 5 * pow10 (-6)) := by
  have h := (C5_parse.2.1 (("1.2u l=2u").toList) (6 / 5) (("u l=2u").toList) (by decide)).1
    (pow10 (-6)) (by decide)
  exact h

/-! ### Claim C8 — split/join -/

/-- A buffer always has at least one (possibly empty) segment. -/
theorem linesOf_ne_nil (b : List Char) : linesOf b ≠ [] := by
  cases b with
  | nil => simp [linesOf]
  | cons c cs =>
    by_cases hc : c = '\n'
    · simp [linesOf, hc]
    · simp only [linesOf, if_neg hc]
      cases h : linesOf cs <;> simp

/-- The accumulator walk of `split_buffer` computes the nonempty segments,
the accumulator extending the first one. -/
theorem splitAux_eq (cs : List Char) : ∀ (cur : List Char) (l : List Char) (ls : List (List Char)),
    linesOf cs = l :: ls →
    splitAux cur cs = ((cur.reverse ++ l) :: ls).filter (fun x => x ≠ []) := by
  induction cs with
  | nil =>
    intro cur l ls h
    simp only [linesOf] at h
    cases h
    simp only [splitAux, List.filter]
    by_cases hcur : cur = []
    · simp [hcur]
    · simp [hcur, List.reverse_eq_nil_iff]
  | cons c cs ih =>
    intro cur l ls h
    by_cases hc : c = '\n'
    · simp only [linesOf, if_pos hc] at h
      cases h
      obtain ⟨l1, ls1, h1⟩ := List.exists_cons_of_ne_nil (linesOf_ne_nil cs)
      have hrec := ih [] l1 ls1 h1
      simp only [List.nil_append, List.reverse_nil] at hrec
      simp only [splitAux, if_pos hc]
      by_cases hcur : cur = []
      · rw [if_pos hcur, hrec, hcur]
        simp [h1]
      · rw [if_neg hcur, hrec, h1]
        simp only [List.filter, List.append_nil]
        have : (decide (cur.reverse ≠ [])) = true := by
          simp [List.reverse_eq_nil_iff, hcur]
        rw [this]
    · simp only [linesOf, if_neg hc] at h
      obtain ⟨l1, ls1, h1⟩ := List.exists_cons_of_ne_nil (linesOf_ne_nil cs)
      rw [h1] at h
      injection h with hA hB
      subst hA
      subst hB
      have hrec := ih (c :: cur) l1 ls1 h1
      simp only [splitAux, if_neg hc]
      rw [hrec]
      simp

/-- `split_buffer` produces exactly the nonempty newline-delimited segments
of the buffer, in document order. -/
theorem split_buffer_eq (b : List Char) :
    split_buffer b = (linesOf b).filter (fun x => x ≠ []) := by
  obtain ⟨l, ls, h⟩ := List.exists_cons_of_ne_nil (linesOf_ne_nil b)
  have := splitAux_eq b [] l ls h
  simp only [List.reverse_nil, List.nil_append] at this
  rw [split_buffer, this, h]

/-- Joining all segments of a buffer appends exactly one final newline. -/
theorem join_linesOf (b : List Char) : join_lines (linesOf b) = b ++ ['\n'] := by
  induction b with
  | nil => simp [linesOf, join_lines]
  | cons c cs ih =>
    by_cases hc : c = '\n'
    · simp only [linesOf, if_pos hc, join_lines, List.nil_append, ih, hc]
      rfl
    · simp only [linesOf, if_neg hc]
      obtain ⟨l1, ls1, h1⟩ := List.exists_cons_of_ne_nil (linesOf_ne_nil cs)
      rw [h1] at ih ⊢
      simp only [join_lines] at ih ⊢
      simp [List.cons_append, ih]

/-- Claim C8: `split_buffer` returns the nonempty lines of the buffer in
document order, `join_lines` appends a newline to every line, and their
composition removes blank lines and guarantees a trailing newline — on a
buffer with no blank line and no trailing newline it returns the buffer
plus exactly one newline, and blank lines (as in `"a\n\nb"`) vanish. -/
theorem C8_split_join :
    (∀ b : List Char, split_buffer b = (linesOf b).filter (fun x => x ≠ [])) ∧
    (∀ ls : List (List Char), join_lines ls = (ls.map (fun l => l ++ ['\n'])).flatten) ∧
    (∀ b : List Char, [] ∉ linesOf b → join_lines (split_buffer b) = b ++ ['\n']) ∧
    join_lines (split_buffer (("a\n\nb").toList)) = ("a\nb\n").toList := by
  refine ⟨split_buffer_eq, fun ls => ?_, fun b hb => ?_, by decide⟩
  · induction ls with
    | nil => rfl
    | cons l ls ih => simp [join_lines, ih]
  · rw [split_buffer_eq, List.filter_eq_self.mpr, join_linesOf]
    intro a ha
    simp only [decide_eq_true_eq]
    intro hnil
    rw [hnil] at ha
    exact hb ha

/-- Witness for C8: the composite applied to the buffer `"a\nb"` (no blank
lines, no trailing newline). -/
theorem C8_split_join_witness :
    join_lines (split_buffer (("a\nb").toList)) = ("a\nb").toList ++ ['\n'] :=
  C8_split_join.2.2.1 (("a\nb").toList) (by decide)


/-! ### Claims C9/C10 — pin-info annotation -/

/-- The `strcat` fold of `pininfoLine`, with a general accumulator. -/
theorem pininfoLine_foldl (ps : List (List Char × Char)) : ∀ acc : List Char,
    ps.foldl (fun acc p => acc ++ ' ' :: (p.1 ++ [':', p.2])) acc =
      acc ++ (ps.map (fun p => ' ' :: (p.1 ++ [':', p.2]))).flatten := by
  induction ps with
  | nil => simp
  | cons p ps ih => intro acc; simp [List.foldl_cons, ih, List.append_assoc]

/-- A line starting with `.SUBCKT` does not start with `*.PININFO`. -/
theorem subckt_not_pininfo (x : List Char) (h : ((".SUBCKT").toList).isPrefixOf x = true) :
    (("*.PININFO").toList).isPrefixOf x = false := by
  cases x with
  | nil => simp [List.isPrefixOf] at h
  | cons c t =>
    simp only [List.isPrefixOf, Bool.and_eq_true, beq_iff_eq] at h ⊢
    obtain ⟨h1, _⟩ := h
    subst h1
    simp

/-- Unfolding equation of `insert_pininfo` in the annotate-and-overwrite
case. -/
theorem insert_pininfo_overwrite (ms : ModuleTable) (x y : List Char)
    (rest : List (List Char)) (ps : List (List Char × Char))
    (hx : ((".SUBCKT").toList).isPrefixOf x = true)
    (hf : find_module ms (subcktToken x) = some ps) (hne : ps ≠ [])
    (hy : (("*.PININFO").toList).isPrefixOf y = true) :
    insert_pininfo ms (x :: y :: rest) = x :: pininfoLine ps :: insert_pininfo ms rest := by
  simp only [insert_pininfo]
  rw [hx, hf]
  simp only [if_pos rfl, if_neg hne]
  rw [hy]
  simp

/-- Unfolding equation of `insert_pininfo` in the annotate-and-insert
case. -/
theorem insert_pininfo_insert (ms : ModuleTable) (x y : List Char)
    (rest : List (List Char)) (ps : List (List Char × Char))
    (hx : ((".SUBCKT").toList).isPrefixOf x = true)
    (hf : find_module ms (subcktToken x) = some ps) (hne : ps ≠ [])
    (hy : (("*.PININFO").toList).isPrefixOf y = false) :
    insert_pininfo ms (x :: y :: rest) = x :: pininfoLine ps :: insert_pininfo ms (y :: rest) := by
  simp only [insert_pininfo]
  rw [hx, hf]
  simp only [if_pos rfl, if_neg hne]
  rw [hy]
  simp

/-- Unfolding equation of `insert_pininfo` when nothing is annotated. -/
theorem insert_pininfo_skip (ms : ModuleTable) (x y : List Char)
    (rest : List (List Char))
    (hx : ((".SUBCKT").toList).isPrefixOf x = true)
    (hf : find_module ms (subcktToken x) = none ∨ find_module ms (subcktToken x) = some []) :
    insert_pininfo ms (x :: y :: rest) = x :: insert_pininfo ms (y :: rest) := by
  simp only [insert_pininfo]
  rw [hx]
  simp only [if_pos rfl]
  rcases hf with hf | hf <;> rw [hf] <;> simp

/-- Claim C9: on a `.SUBCKT` line whose extracted token is found in the
module table with a nonempty pin list, the annotator overwrites an
immediately following `*.PININFO` line in place, or inserts the new line
immediately after otherwise; the built line is `*.PININFO` followed by
`" <pin>:<dir>"` for each pin in table order.  When the module is not
found, or is found with no pins, nothing is inserted or overwritten. -/
theorem C9_pininfo :
    (∀ (ms : ModuleTable) (x y : List Char) (rest : List (List Char)) ps,
      ((".SUBCKT").toList).isPrefixOf x = true →
      find_module ms (subcktToken x) = some ps → ps ≠ [] →
      ((("*.PININFO").toList).isPrefixOf y = true →
        insert_pininfo ms (x :: y :: rest) = x :: pininfoLine ps :: insert_pininfo ms rest) ∧
      ((("*.PININFO").toList).isPrefixOf y = false →
        insert_pininfo ms (x :: y :: rest) = x :: pininfoLine ps :: insert_pininfo ms (y :: rest))) ∧
    (∀ (ms : ModuleTable) (x y : List Char) (rest : List (List Char)),
      ((".SUBCKT").toList).isPrefixOf x = true →
      (find_module ms (subcktToken x) = none ∨ find_module ms (subcktToken x) = some []) →
      insert_pininfo ms (x :: y :: rest) = x :: insert_pininfo ms (y :: rest)) ∧
    (∀ ps, pininfoLine ps =
      ("*.PININFO").toList ++ (ps.map (fun p => ' ' :: (p.1 ++ [':', p.2]))).flatten) :=
  ⟨fun ms x y rest ps hx hf hne =>
    ⟨insert_pininfo_overwrite ms x y rest ps hx hf hne,
     insert_pininfo_insert ms x y rest ps hx hf hne⟩,
   insert_pininfo_skip,
   fun ps => pininfoLine_foldl ps _⟩

/-- Witness for C9: a concrete table and store exercising the insert case. -/
theorem C9_pininfo_witness :
    insert_pininfo [((("INV").toList), [((("A").toList), 'I'), ((("Y").toList), 'O')])]
        [(".SUBCKT INV A Y").toList, ("M1 x").toList] =
      [(".SUBCKT INV A Y").toList, ("*.PININFO A:I Y:O").toList, ("M1 x").toList] := by
  have h := ((C9_pininfo.1 [((("INV").toList), [((("A").toList), 'I'), ((("Y").toList), 'O')])]
    ((".SUBCKT INV A Y").toList) (("M1 x").toList) [] [((("A").toList), 'I'), ((("Y").toList), 'O')]
    (by decide) (by decide) (by decide)).2 (by decide))
  rw [h]
  decide

/-- Unfolding equation of `insert_pininfo` on a non-`.SUBCKT` head. -/
theorem insert_pininfo_notsub (ms : ModuleTable) (x y : List Char)
    (rest : List (List Char)) (hx : ((".SUBCKT").toList).isPrefixOf x = false) :
    insert_pininfo ms (x :: y :: rest) = x :: insert_pininfo ms (y :: rest) := by
  simp only [insert_pininfo]
  rw [hx]
  simp

/-- Claim C10: the traversal of `insert_pininfo` only visits nodes that
have a successor, so the last line of the store — in particular a final
`.SUBCKT` line, even one whose module is found with pins — is never
annotated: it stays the last line, unmodified, with nothing inserted after
it. -/
theorem C10_last_subckt (ms : ModuleTable) (ls : List (List Char)) (x : List Char)
    (hx : ((".SUBCKT").toList).isPrefixOf x = true) :
    ∃ ys, insert_pininfo ms (ls ++ [x]) = ys ++ [x] := by
  match ls with
  | [] => exact ⟨[], rfl⟩
  | [a] =>
    by_cases ha : ((".SUBCKT").toList).isPrefixOf a = true
    · cases hf : find_module ms (subcktToken a) with
      | none =>
        rw [List.cons_append, List.nil_append, insert_pininfo_skip ms a x [] ha (Or.inl hf)]
        exact ⟨[a], rfl⟩
      | some ps =>
        by_cases hne : ps = []
        · rw [List.cons_append, List.nil_append,
            insert_pininfo_skip ms a x [] ha (Or.inr (hne ▸ hf))]
          exact ⟨[a], rfl⟩
        · rw [List.cons_append, List.nil_append,
            insert_pininfo_insert ms a x [] ps ha hf hne (subckt_not_pininfo x hx)]
          exact ⟨[a, pininfoLine ps], rfl⟩
    · rw [List.cons_append, List.nil_append,
        insert_pininfo_notsub ms a x [] (Bool.not_eq_true _ ▸ ha)]
      exact ⟨[a], rfl⟩
  | a :: b :: ls2 =>
    obtain ⟨ys1, h1⟩ := C10_last_subckt ms (b :: ls2) x hx
    obtain ⟨ys2, h2⟩ := C10_last_subckt ms ls2 x hx
    rw [List.cons_append]
    by_cases ha : ((".SUBCKT").toList).isPrefixOf a = true
    · cases hf : find_module ms (subcktToken a) with
      | none =>
        rw [List.cons_append, insert_pininfo_skip ms a b (ls2 ++ [x]) ha (Or.inl hf),
          ← List.cons_append, h1]
        exact ⟨a :: ys1, by rw [List.cons_append]⟩
      | some ps =>
        by_cases hne : ps = []
        · rw [List.cons_append, insert_pininfo_skip ms a b (ls2 ++ [x]) ha (Or.inr (hne ▸ hf)),
            ← List.cons_append, h1]
          exact ⟨a :: ys1, by rw [List.cons_append]⟩
        · by_cases hy : (("*.PININFO").toList).isPrefixOf b = true
          · rw [List.cons_append, insert_pininfo_overwrite ms a b (ls2 ++ [x]) ps ha hf hne hy, h2]
            exact ⟨a :: pininfoLine ps :: ys2, by simp⟩
          · rw [List.cons_append,
              insert_pininfo_insert ms a b (ls2 ++ [x]) ps ha hf hne (Bool.not_eq_true _ ▸ hy),
              ← List.cons_append, h1]
            exact ⟨a :: pininfoLine ps :: ys1, by simp⟩
    · rw [List.cons_append, insert_pininfo_notsub ms a b (ls2 ++ [x]) (Bool.not_eq_true _ ▸ ha),
        ← List.cons_append, h1]
      exact ⟨a :: ys1, by rw [List.cons_append]⟩
termination_by ls.length

/-- Witness for C10: a table containing the module of the final `.SUBCKT`
line; the line still ends the store untouched. -/
theorem C10_last_subckt_witness :
    ∃ ys, insert_pininfo [((("INV").toList), [((("A").toList), 'I')])]
        ([("x1 a b").toList] ++ [(".SUBCKT INV A").toList]) = ys ++ [(".SUBCKT INV A").toList] :=
  C10_last_subckt [((("INV").toList), [((("A").toList), 'I')])] [("x1 a b").toList]
    ((".SUBCKT INV A").toList) (by decide)

/-! ### Claim C6 — `double_to_si` divisor selection -/

/-- A successful `siScan` returns a table entry that fits and is not 1. -/
theorem siScan_mem (a : RVal) : ∀ (t : List (List Char × ℚ)) (u : List Char) (d : ℚ),
    siScan t a = some (u, d) → (u, d) ∈ t ∧ RVal.leb (RVal.val d) a = true ∧ d ≠ 1 := by
  intro t
  induction t with
  | nil => intro u d h; simp [siScan] at h
  | cons p t ih =>
    obtain ⟨u0, d0⟩ := p
    intro u d h
    simp only [siScan] at h
    by_cases hc : (RVal.leb (RVal.val d0) a && decide (d0 ≠ 1)) = true
    · rw [if_pos hc] at h
      injection h with h
      injection h with h1 h2
      subst h1
      subst h2
      simp only [Bool.and_eq_true, decide_eq_true_eq] at hc
      exact ⟨List.mem_cons_self _ _, hc.1, hc.2⟩
    · rw [if_neg hc] at h
      obtain ⟨hm, hle, h1⟩ := ih u d h
      exact ⟨List.mem_cons_of_mem _ hm, hle, h1⟩

/-- `siScan` fails when no entry fits. -/
theorem siScan_none_of (a : RVal) : ∀ (t : List (List Char × ℚ)),
    (∀ p ∈ t, RVal.leb (RVal.val p.2) a = false) → siScan t a = none := by
  intro t
  induction t with
  | nil => intro _; rfl
  | cons p t ih =>
    obtain ⟨u0, d0⟩ := p
    intro h
    have h0 := h (u0, d0) (List.mem_cons_self _ _)
    simp only [siScan, h0, Bool.false_and, if_neg Bool.false_ne_true]
    exact ih (fun p hp => h p (List.mem_cons_of_mem _ hp))

/-- In a table with strictly descending divisors, none equal to 1, the
first fitting entry has the largest fitting divisor. -/
theorem siScan_max (a : RVal) : ∀ (t : List (List Char × ℚ)),
    t.Pairwise (fun p r => r.2 < p.2) → (∀ p ∈ t, p.2 ≠ 1) →
    ∀ (u : List Char) (d : ℚ), siScan t a = some (u, d) →
    ∀ r ∈ t, RVal.leb (RVal.val r.2) a = true → r.2 ≤ d := by
  intro t
  induction t with
  | nil => intro _ _ u d h; simp [siScan] at h
  | cons p t ih =>
    obtain ⟨u0, d0⟩ := p
    intro hsort hno1 u d h r hr hler
    obtain ⟨hhead, htail⟩ := List.pairwise_cons.mp hsort
    simp only [siScan] at h
    by_cases hc : (RVal.leb (RVal.val d0) a && decide (d0 ≠ 1)) = true
    · rw [if_pos hc] at h
      injection h with h
      injection h with h1 h2
      subst h1
      subst h2
      rcases List.mem_cons.mp hr with hr | hr
      · rw [hr]
      · exact le_of_lt (hhead r hr)
    · rw [if_neg hc] at h
      rcases List.mem_cons.mp hr with hr | hr
      · exfalso
        apply hc
        rw [hr] at hler
        simp only [hler, Bool.true_and, decide_eq_true_eq]
        exact hno1 (u0, d0) (List.mem_cons_self _ _)
      · exact ih htail (fun p hp => hno1 p (List.mem_cons_of_mem _ hp)) u d h r hr hler

/-- A failing `siScan` means every entry failed its test. -/
theorem siScan_none_mem (a : RVal) : ∀ (t : List (List Char × ℚ)),
    siScan t a = none →
    ∀ p ∈ t, (RVal.leb (RVal.val p.2) a && decide (p.2 ≠ 1)) = false := by
  intro t
  induction t with
  | nil => intro _ p hp; simp at hp
  | cons p0 t ih =>
    obtain ⟨u0, d0⟩ := p0
    intro h p hp
    simp only [siScan] at h
    by_cases hc : (RVal.leb (RVal.val d0) a && decide (d0 ≠ 1)) = true
    · rw [if_pos hc] at h
      exact absurd h (by simp)
    · rw [if_neg hc] at h
      rcases List.mem_cons.mp hp with hp | hp
      · rw [hp]
        exact Bool.not_eq_true _ ▸ hc
      · exact ih h p hp

/-- The characters that `%g` can produce for a finite rational. -/
def gAllowedChars : List Char :=
  ['-', '+', '.', 'e', '0', '1', '2', '3', '4', '5', '6', '7', '8', '9']

/-- Digits produced by the fueled digit expansion are decimal digits. -/
theorem digitsAuxM_lt : ∀ (fuel n : ℕ), ∀ d ∈ digitsAuxM fuel n, d < 10 := by
  intro fuel
  induction fuel with
  | zero => intro n d hd; cases n <;> simp [digitsAuxM] at hd
  | succ f ih =>
    intro n d hd
    cases n with
    | zero => simp [digitsAuxM] at hd
    | succ m =>
      simp only [digitsAuxM, List.mem_cons] at hd
      rcases hd with hd | hd
      · rw [hd]; exact Nat.mod_lt _ (by norm_num)
      · exact ih _ d hd

/-- Digits of `natDigitsM` are decimal digits. -/
theorem natDigitsM_lt (n : ℕ) : ∀ d ∈ natDigitsM n, d < 10 := by
  intro d hd
  rw [natDigitsM, List.mem_reverse] at hd
  exact digitsAuxM_lt n n d hd

/-- Stripping zeros keeps membership. -/
theorem stripZeros_sub (ds : List ℕ) : ∀ d ∈ stripZeros ds, d ∈ ds := by
  intro d hd
  rw [stripZeros, List.mem_reverse] at hd
  have := (List.dropWhile_sublist (fun x => decide (x = 0))).subset hd
  rwa [List.mem_reverse] at this

/-- The digit character of a decimal digit. -/
theorem digitChar_mem (d : ℕ) (h : d < 10) :
    Nat.digitChar d ∈ (['0', '1', '2', '3', '4', '5', '6', '7', '8', '9'] : List Char) := by
  interval_cases d <;> decide

/-- Rendered decimal digits lie in the allowed set. -/
theorem renderDigits_chars (ds : List ℕ) (hds : ∀ d ∈ ds, d < 10) :
    ∀ c ∈ renderDigits ds, c ∈ gAllowedChars := by
  intro c hc
  obtain ⟨d, hd, hcd⟩ := List.mem_map.mp hc
  subst hcd
  have := digitChar_mem d (hds d hd)
  revert this
  simp [gAllowedChars]
  intro h
  tauto

/-- Exponent digits lie in the allowed set. -/
theorem expDigits_chars (m : ℕ) : ∀ c ∈ expDigits m, c ∈ gAllowedChars := by
  intro c hc
  rw [expDigits] at hc
  by_cases hm : m < 10
  · rw [if_pos hm] at hc
    rcases List.mem_cons.mp hc with hc | hc
    · subst hc; simp [gAllowedChars]
    · rcases List.mem_cons.mp hc with hc | hc
      · subst hc
        have := digitChar_mem m hm
        revert this
        simp [gAllowedChars]
        intro h
        tauto
      · simp at hc
  · rw [if_neg hm] at hc
    exact renderDigits_chars _ (natDigitsM_lt m) c hc

/-- Fixed-notation output lies in the allowed set. -/
theorem fixedRender_chars (n : ℕ) (X : ℤ) : ∀ c ∈ fixedRender n X, c ∈ gAllowedChars := by
  intro c hc
  rw [fixedRender] at hc
  by_cases hX : 0 ≤ X
  · rw [if_pos hX] at hc
    rcases List.mem_append.mp hc with hc | hc
    · exact renderDigits_chars _ (fun d hd => natDigitsM_lt n d (List.take_subset _ _ hd)) c hc
    · by_cases hfp : stripZeros ((natDigitsM n).drop (X.toNat + 1)) = []
      · rw [if_pos hfp] at hc; simp at hc
      · rw [if_neg hfp] at hc
        rcases List.mem_cons.mp hc with hc | hc
        · subst hc; simp [gAllowedChars]
        · exact renderDigits_chars _
            (fun d hd => natDigitsM_lt n d (List.drop_subset _ _ (stripZeros_sub _ d hd))) c hc
  · rw [if_neg hX] at hc
    rcases List.mem_cons.mp hc with hc | hc
    · subst hc; simp [gAllowedChars]
    · rcases List.mem_cons.mp hc with hc | hc
      · subst hc; simp [gAllowedChars]
      · rcases List.mem_append.mp hc with hc | hc
        · have := List.eq_of_mem_replicate hc
          subst this; simp [gAllowedChars]
        · exact renderDigits_chars _ (fun d hd => natDigitsM_lt n d (stripZeros_sub _ d hd)) c hc

/-- Scientific-notation output lies in the allowed set. -/
theorem sciRender_chars (n : ℕ) (X : ℤ) : ∀ c ∈ sciRender n X, c ∈ gAllowedChars := by
  intro c hc
  rw [sciRender] at hc
  rcases List.mem_append.mp hc with hc | hc
  · rcases List.mem_append.mp hc with hc | hc
    · exact renderDigits_chars _ (fun d hd => natDigitsM_lt n d (List.take_subset _ _ hd)) c hc
    · by_cases hfp : stripZeros ((natDigitsM n).drop 1) = []
      · rw [if_pos hfp] at hc; simp at hc
      · rw [if_neg hfp] at hc
        rcases List.mem_cons.mp hc with hc | hc
        · subst hc; simp [gAllowedChars]
        · exact renderDigits_chars _
            (fun d hd => natDigitsM_lt n d (List.drop_subset _ _ (stripZeros_sub _ d hd))) c hc
  · rcases List.mem_cons.mp hc with hc | hc
    · subst hc; simp [gAllowedChars]
    · rcases List.mem_cons.mp hc with hc | hc
      · by_cases hXn : X < 0
        · rw [if_pos hXn] at hc; subst hc; simp [gAllowedChars]
        · rw [if_neg hXn] at hc; subst hc; simp [gAllowedChars]
      · exact expDigits_chars _ c hc

/-- Every character of a `%g` rendering is a digit, sign, dot or `e`. -/
theorem gFormat_chars (q : ℚ) : ∀ c ∈ gFormat q, c ∈ gAllowedChars := by
  intro c hc
  rw [gFormat] at hc
  by_cases h0 : q = 0
  · rw [if_pos h0] at hc
    rcases List.mem_cons.mp hc with hc | hc
    · subst hc; simp [gAllowedChars]
    · simp at hc
  · rw [if_neg h0] at hc
    rcases List.mem_append.mp hc with hc | hc
    · by_cases hneg : q < 0
      · rw [if_pos hneg] at hc
        rcases List.mem_cons.mp hc with hc | hc
        · subst hc; simp [gAllowedChars]
        · simp at hc
      · rw [if_neg hneg] at hc; simp at hc
    · rw [gFormatPos] at hc
      split at hc <;> split at hc
      all_goals first
        | exact fixedRender_chars _ _ c hc
        | exact sciRender_chars _ _ c hc

/-- Claim C6: when some table divisor is at most `|q|`, `double_to_si`
selects the largest such divisor (scanning the table from `1e24` down to
`1e-24`) and renders `q / d` in `%g` format followed by that divisor's
unit; when no divisor fits (`|q| < 1e-24`, including zero), it renders the
bare `%g` form, which contains no unit symbol. -/
theorem C6_format :
    (∀ q : ℚ, (∃ p ∈ si_divisors, p.2 ≤ |q|) →
      ∃ p ∈ si_divisors, p.2 ≤ |q| ∧ (∀ r ∈ si_divisors, r.2 ≤ |q| → r.2 ≤ p.2) ∧
        double_to_si (RVal.val q) = gFormat (q / p.2) ++ p.1) ∧
    (∀ q : ℚ, |q| < pow10 (-24) →
      double_to_si (RVal.val q) = gFormat q ∧
      ∀ p ∈ si_divisors, ∀ c ∈ p.1, c ∉ gFormat q) := by
  constructor
  · rintro q ⟨p0, hp0, hle0⟩
    cases hscan : siScan si_divisors (RVal.fabs (RVal.val q)) with
    | none =>
      exfalso
      have hall := siScan_none_mem _ _ hscan p0 hp0
      have hne1 : p0.2 ≠ 1 := by
        have hfact : ∀ p ∈ si_divisors, p.2 ≠ (1 : ℚ) := by decide
        exact hfact p0 hp0
      rw [show RVal.leb (RVal.val p0.2) (RVal.fabs (RVal.val q)) = decide (p0.2 ≤ |q|) from rfl,
        decide_eq_true hle0, decide_eq_true hne1] at hall
      simp at hall
    | some pr =>
      obtain ⟨u, d⟩ := pr
      obtain ⟨hmem, hle, hne1⟩ := siScan_mem _ _ _ _ hscan
      have hled : d ≤ |q| := of_decide_eq_true hle
      have hsorted : si_divisors.Pairwise (fun p r => r.2 < p.2) := by decide
      have hno1 : ∀ p ∈ si_divisors, p.2 ≠ (1 : ℚ) := by decide
      have hmax := siScan_max _ si_divisors hsorted hno1 u d hscan
      refine ⟨(u, d), hmem, hled, ?_, ?_⟩
      · intro r hr hler
        exact hmax r hr (decide_eq_true hler)
      · have hdne0 : d ≠ 0 := by
          have hfact : ∀ p ∈ si_divisors, p.2 ≠ (0 : ℚ) := by decide
          exact hfact (u, d) hmem
        simp only [double_to_si, hscan]
        rw [show RVal.div (RVal.val q) (RVal.val d) = RVal.val (q / d) from by
          simp [RVal.div, hdne0]]
        rfl
  · intro q hq
    have hnone : siScan si_divisors (RVal.fabs (RVal.val q)) = none := by
      apply siScan_none_of
      intro p hp
      have hge : pow10 (-24) ≤ p.2 := by
        have hfact : ∀ p ∈ si_divisors, pow10 (-24) ≤ p.2 := by decide
        exact hfact p hp
      rw [show RVal.leb (RVal.val p.2) (RVal.fabs (RVal.val q)) = decide (p.2 ≤ |q|) from rfl]
      simp only [decide_eq_false_iff_not, not_le]
      exact lt_of_lt_of_le hq hge
    constructor
    · simp only [double_to_si, hnone]
      rfl
    · intro p hp c hc hcg
      have h1 := gFormat_chars q c hcg
      have h2 : ∀ r ∈ si_divisors, ∀ c0 ∈ r.1, c0 ∉ gAllowedChars := by decide
      exact h2 p hp c hc h1

/-- Witness for C6: the selection part at `q = 3/2` (the deci divisor wins
and the rendering is `15d`), and the fallback at `q = 10⁻²⁵`. -/
theorem C6_format_witness :
    (∃ p ∈ si_divisors, p.2 ≤ |(3 / 2 : ℚ)| ∧
      (∀ r ∈ si_divisors, r.2 ≤ |(3 / 2 : ℚ)| → r.2 ≤ p.2) ∧
      double_to_si (RVal.val (3 / 2)) = gFormat ((3 / 2) / p.2) ++ p.1) ∧
    double_to_si (RVal.val (1 / 10 ^ 25)) = gFormat (1 / 10 ^ 25) := by
  constructor
  · exact C6_format.1 (3 / 2) ⟨(['d'], pow10 (-1)), by decide, by decide⟩
  · exact (C6_format.2 (1 / 10 ^ 25) (by decide)).1

/-! ### Claim C7 — development: decimal logarithm bounds -/

/-- Correctness of the fueled decimal logarithm. -/
theorem log10Aux_bounds : ∀ (fuel n : ℕ), 1 ≤ n → n ≤ fuel →
    10 ^ log10Aux fuel n ≤ n ∧ n < 10 ^ (log10Aux fuel n + 1) := by
  intro fuel
  induction fuel with
  | zero => intro n h1 h2; omega
  | succ f ih =>
    intro n h1 h2
    by_cases hn : n < 10
    · simp only [log10Aux, if_pos hn]
      constructor
      · simpa using h1
      · simpa using hn
    · simp only [log10Aux, if_neg hn]
      push_neg at hn
      have hd1 : 1 ≤ n / 10 := (Nat.one_le_div_iff (by norm_num)).mpr hn
      have hdf : n / 10 ≤ f := by
        have := Nat.div_lt_self (by omega : 0 < n) (by norm_num : 1 < 10)
        omega
      obtain ⟨hlo, hhi⟩ := ih (n / 10) hd1 hdf
      constructor
      · calc 10 ^ (log10Aux f (n / 10) + 1) = 10 ^ log10Aux f (n / 10) * 10 := by ring
        _ ≤ (n / 10) * 10 := by exact Nat.mul_le_mul_right 10 hlo
        _ ≤ n := Nat.div_mul_le_self n 10
      · calc n < (n / 10 + 1) * 10 := by
              have := Nat.div_add_mod n 10
              have := Nat.mod_lt n (show 0 < 10 by norm_num)
              omega
        _ ≤ 10 ^ (log10Aux f (n / 10) + 1) * 10 := Nat.mul_le_mul_right 10 hhi
        _ = 10 ^ (log10Aux f (n / 10) + 1 + 1) := by ring

/-- `natLog10` bounds. -/
theorem natLog10_bounds (n : ℕ) (h : 1 ≤ n) :
    10 ^ natLog10 n ≤ n ∧ n < 10 ^ (natLog10 n + 1) :=
  log10Aux_bounds n n h le_rfl


/-- `ratLog10` computes the decimal floor logarithm of a positive
rational. -/
theorem ratLog10_bounds (a : ℚ) (ha : 0 < a) :
    (10 : ℚ) ^ ratLog10 a ≤ a ∧ a < (10 : ℚ) ^ (ratLog10 a + 1) := by
  set p : ℕ := a.num.toNat with hp
  have hnum : (0 : ℤ) < a.num := Rat.num_pos.mpr ha
  have hp1 : 1 ≤ p := by omega
  have hq1 : 1 ≤ a.den := a.pos
  obtain ⟨hplo, hphi⟩ := natLog10_bounds p hp1
  obtain ⟨hqlo, hqhi⟩ := natLog10_bounds a.den hq1
  set lp : ℤ := (natLog10 p : ℤ) with hlp
  set lq : ℤ := (natLog10 a.den : ℤ) with hlq
  have haq : a = (p : ℚ) / (a.den : ℚ) := by
    have h1 : ((p : ℕ) : ℚ) = ((a.num : ℤ) : ℚ) := by
      rw [hp]
      exact_mod_cast Int.toNat_of_nonneg hnum.le
    rw [h1, Rat.num_div_den]
  have hqpos : (0 : ℚ) < (a.den : ℚ) := by positivity
  have hplo' : (10 : ℚ) ^ lp ≤ (p : ℚ) := by
    rw [hlp, zpow_natCast]
    exact_mod_cast hplo
  have hphi' : (p : ℚ) < (10 : ℚ) ^ (lp + 1) := by
    rw [hlp, show ((natLog10 p : ℤ) + 1) = ((natLog10 p + 1 : ℕ) : ℤ) by push_cast; ring,
      zpow_natCast]
    exact_mod_cast hphi
  have hqlo' : (10 : ℚ) ^ lq ≤ (a.den : ℚ) := by
    rw [hlq, zpow_natCast]
    exact_mod_cast hqlo
  have hqhi' : (a.den : ℚ) < (10 : ℚ) ^ (lq + 1) := by
    rw [hlq, show ((natLog10 a.den : ℤ) + 1) = ((natLog10 a.den + 1 : ℕ) : ℤ) by push_cast; ring,
      zpow_natCast]
    exact_mod_cast hqhi
  have hsplit1 : (10 : ℚ) ^ (lp + 1) = (10 : ℚ) ^ (lp - lq + 1) * (10 : ℚ) ^ lq := by
    rw [← zpow_add₀ (by norm_num : (10 : ℚ) ≠ 0)]
    congr 1
    ring
  have hsplit2 : (10 : ℚ) ^ (lp - lq - 1) * (10 : ℚ) ^ (lq + 1) = (10 : ℚ) ^ lp := by
    rw [← zpow_add₀ (by norm_num : (10 : ℚ) ≠ 0)]
    congr 1
    ring
  have hupper : a < (10 : ℚ) ^ (lp - lq + 1) := by
    rw [haq, div_lt_iff₀ hqpos]
    have h2 : (10 : ℚ) ^ (lp - lq + 1) * (10 : ℚ) ^ lq ≤ (10 : ℚ) ^ (lp - lq + 1) * (a.den : ℚ) :=
      mul_le_mul_of_nonneg_left hqlo' (zpow_nonneg (by norm_num) _)
    calc (p : ℚ) < (10 : ℚ) ^ (lp + 1) := hphi'
    _ = (10 : ℚ) ^ (lp - lq + 1) * (10 : ℚ) ^ lq := hsplit1
    _ ≤ (10 : ℚ) ^ (lp - lq + 1) * (a.den : ℚ) := h2
  have hlower : (10 : ℚ) ^ (lp - lq - 1) < a := by
    rw [haq, lt_div_iff₀ hqpos]
    have h2 : (10 : ℚ) ^ (lp - lq - 1) * (a.den : ℚ) <
        (10 : ℚ) ^ (lp - lq - 1) * (10 : ℚ) ^ (lq + 1) :=
      mul_lt_mul_of_pos_left hqhi' (zpow_pos (by norm_num) _)
    calc (10 : ℚ) ^ (lp - lq - 1) * (a.den : ℚ)
        < (10 : ℚ) ^ (lp - lq - 1) * (10 : ℚ) ^ (lq + 1) := h2
    _ = (10 : ℚ) ^ lp := hsplit2
    _ ≤ (p : ℚ) := hplo'
  rw [ratLog10]
  simp only [← hp, ← hlp, ← hlq]
  by_cases hcase : (10 : ℚ) ^ (lp - lq - 1 + 1) ≤ a
  · rw [if_pos hcase]
    refine ⟨hcase, ?_⟩
    have h3 : lp - lq - 1 + 1 + 1 = lp - lq + 1 := by ring
    rw [h3]
    exact hupper
  · rw [if_neg hcase]
    push_neg at hcase
    exact ⟨hlower.le, hcase⟩

/-- The rounding error of `rnd` is at most one half. -/
theorem rnd_err (x : ℚ) : |((rnd x : ℤ) : ℚ) - x| ≤ 1 / 2 := by
  rw [abs_le]
  have h1 := Int.floor_le (x + 1 / 2)
  have h2 := Int.lt_floor_add_one (x + 1 / 2)
  rw [rnd]
  constructor <;> linarith

/-- `rnd` stays within the bounds of its argument range. -/
theorem rnd_range (x : ℚ) (h1 : 100000 ≤ x) (h2 : x < 1000000) :
    100000 ≤ rnd x ∧ rnd x ≤ 1000000 := by
  constructor
  · rw [rnd, Int.le_floor]
    push_cast
    linarith
  · rw [rnd]
    have : (⌊x + 1 / 2⌋ : ℚ) ≤ x + 1 / 2 := Int.floor_le _
    have hlt : ⌊x + 1 / 2⌋ < 1000001 := by
      rw [Int.floor_lt]
      push_cast
      linarith
    omega

/-! ### Digit-list value lemmas -/

/-- The `msdVal` fold with a general accumulator. -/
theorem msdVal_foldl (ds : List ℕ) : ∀ a : ℕ,
    ds.foldl (fun a d => 10 * a + d) a = a * 10 ^ ds.length + msdVal ds := by
  induction ds with
  | nil => intro a; simp [msdVal]
  | cons d ds ih =>
    intro a
    have hd : msdVal (d :: ds) = d * 10 ^ ds.length + msdVal ds := by
      rw [msdVal, List.foldl_cons, ih]
      simp
    rw [List.foldl_cons, ih, hd, List.length_cons]
    ring

/-- Value of a concatenation of digit blocks. -/
theorem msdVal_append (xs ys : List ℕ) :
    msdVal (xs ++ ys) = msdVal xs * 10 ^ ys.length + msdVal ys := by
  rw [msdVal, List.foldl_append, ← msdVal, msdVal_foldl]

/-- A block of zero digits has value zero. -/
theorem msdVal_replicate_zero (z : ℕ) : msdVal (List.replicate z 0) = 0 := by
  induction z with
  | zero => rfl
  | succ n ih =>
    have : List.replicate (n + 1) 0 = List.replicate n 0 ++ [0] := by
      rw [← List.replicate_succ']
    rw [this, msdVal_append, ih]
    simp [msdVal]

/-- Stripping trailing zeros splits off a zero block. -/
theorem stripZeros_split (ds : List ℕ) :
    ∃ z, ds = stripZeros ds ++ List.replicate z 0 := by
  refine ⟨(ds.reverse.takeWhile (fun d => d = 0)).length, ?_⟩
  have hsplit : ds.reverse.takeWhile (fun d => d = 0) ++ ds.reverse.dropWhile (fun d => d = 0) =
      ds.reverse := List.takeWhile_append_dropWhile _ _
  have htake : ds.reverse.takeWhile (fun d => d = 0) =
      List.replicate (ds.reverse.takeWhile (fun d => d = 0)).length 0 := by
    apply List.eq_replicate_of_mem
    intro d hd
    have hp := List.mem_takeWhile_imp hd
    simpa using hp
  calc ds = ds.reverse.reverse := (List.reverse_reverse ds).symm
  _ = (ds.reverse.takeWhile (fun d => d = 0) ++ ds.reverse.dropWhile (fun d => d = 0)).reverse := by
      rw [hsplit]
  _ = stripZeros ds ++ List.replicate (ds.reverse.takeWhile (fun d => d = 0)).length 0 := by
      rw [List.reverse_append, stripZeros]
      congr 1
      rw [htake, List.reverse_replicate]
      simp

/-- Value after stripping trailing zeros. -/
theorem msdVal_stripZeros (ds : List ℕ) :
    ∃ z, ds.length = (stripZeros ds).length + z ∧
      msdVal ds = msdVal (stripZeros ds) * 10 ^ z := by
  obtain ⟨z, hz⟩ := stripZeros_split ds
  refine ⟨z, ?_, ?_⟩
  · have hlen := congrArg List.length hz
    rw [List.length_append, List.length_replicate] at hlen
    omega
  · calc msdVal ds = msdVal (stripZeros ds ++ List.replicate z 0) := by rw [← hz]
    _ = msdVal (stripZeros ds) * 10 ^ z := by
        rw [msdVal_append, msdVal_replicate_zero, List.length_replicate]
        ring

/-- The fueled digit expansion recovers its input. -/
theorem digitsAuxM_msdVal : ∀ (fuel n : ℕ), n ≤ fuel →
    msdVal ((digitsAuxM fuel n).reverse) = n := by
  intro fuel
  induction fuel with
  | zero =>
    intro n h
    interval_cases n
    rfl
  | succ f ih =>
    intro n h
    cases n with
    | zero => rfl
    | succ m =>
      have hrec : m + 1 ≤ f + 1 := h
      have hdf : (m + 1) / 10 ≤ f := by
        have := Nat.div_lt_self (by omega : 0 < m + 1) (by norm_num : 1 < 10)
        omega
      simp only [digitsAuxM, List.reverse_cons]
      rw [msdVal_append, ih ((m + 1) / 10) hdf]
      have hmod : msdVal [(m + 1) % 10] = (m + 1) % 10 := by simp [msdVal]
      rw [hmod, List.length_singleton]
      have := Nat.div_add_mod (m + 1) 10
      omega

/-- `natDigitsM` recovers its input. -/
theorem natDigitsM_msdVal (n : ℕ) : msdVal (natDigitsM n) = n :=
  digitsAuxM_msdVal n n le_rfl

/-- Length of the fueled digit expansion. -/
theorem digitsAuxM_length : ∀ (fuel n : ℕ), 1 ≤ n → n ≤ fuel →
    (digitsAuxM fuel n).length = log10Aux fuel n + 1 := by
  intro fuel
  induction fuel with
  | zero => intro n h1 h2; omega
  | succ f ih =>
    intro n h1 h2
    cases n with
    | zero => omega
    | succ m =>
      simp only [digitsAuxM, List.length_cons]
      by_cases hn : m + 1 < 10
      · have hz : (m + 1) / 10 = 0 := Nat.div_eq_of_lt hn
        rw [hz]
        simp [digitsAuxM, log10Aux, hn]
      · push_neg at hn
        have hd1 : 1 ≤ (m + 1) / 10 := (Nat.one_le_div_iff (by norm_num)).mpr hn
        have hdf : (m + 1) / 10 ≤ f := by
          have := Nat.div_lt_self (by omega : 0 < m + 1) (by norm_num : 1 < 10)
          omega
        rw [ih ((m + 1) / 10) hd1 hdf]
        simp only [log10Aux, if_neg (by omega : ¬m + 1 < 10)]

/-- A six-digit number has six digits. -/
theorem natDigitsM_length6 (n : ℕ) (h1 : 10 ^ 5 ≤ n) (h2 : n < 10 ^ 6) :
    (natDigitsM n).length = 6 := by
  have hn1 : 1 ≤ n := le_trans (by norm_num) h1
  obtain ⟨hlo, hhi⟩ := natLog10_bounds n hn1
  have hL : natLog10 n = 5 := by
    by_contra hne
    rcases Nat.lt_or_ge (natLog10 n) 5 with hlt | hge
    · have : 10 ^ (natLog10 n + 1) ≤ 10 ^ 5 :=
        Nat.pow_le_pow_right (by norm_num) (by omega)
      omega
    · have h6 : 6 ≤ natLog10 n := by omega
      have : 10 ^ 6 ≤ 10 ^ natLog10 n := Nat.pow_le_pow_right (by norm_num) h6
      omega
  have := digitsAuxM_length n n hn1 le_rfl
  rw [natDigitsM, List.length_reverse, this]
  rw [natLog10] at hL
  omega

/-- Decimal digit characters: classification and value. -/
theorem digitChar_facts (d : ℕ) (h : d < 10) :
    (Nat.digitChar d).isDigit = true ∧ isSpaceC (Nat.digitChar d) = false ∧
    Nat.digitChar d ≠ '-' ∧ Nat.digitChar d ≠ '+' ∧ Nat.digitChar d ≠ '.' ∧
    Nat.digitChar d ≠ 'e' ∧ Nat.digitChar d ≠ 'E' ∧ (Nat.digitChar d).toNat - 48 = d := by
  interval_cases d <;> exact ⟨rfl, rfl, by decide, by decide, by decide, by decide, by decide, rfl⟩

/-- `digitsVal` of rendered digits is `msdVal`, with general accumulator. -/
theorem digitsVal_foldl (ds : List ℕ) : ∀ a : ℕ, (∀ d ∈ ds, d < 10) →
    (renderDigits ds).foldl (fun a c => 10 * a + (c.toNat - 48)) a =
      ds.foldl (fun a d => 10 * a + d) a := by
  induction ds with
  | nil => intro a _; rfl
  | cons d ds ih =>
    intro a hds
    have hd := (digitChar_facts d (hds d (by simp))).2.2.2.2.2.2.2
    simp only [renderDigits, List.map_cons, List.foldl_cons]
    rw [hd]
    exact ih _ (fun x hx => hds x (by simp [hx]))

/-- `digitsVal ∘ renderDigits = msdVal` on decimal digit lists. -/
theorem digitsVal_renderDigits (ds : List ℕ) (h : ∀ d ∈ ds, d < 10) :
    digitsVal (renderDigits ds) = msdVal ds := by
  rw [digitsVal, msdVal]
  exact digitsVal_foldl ds 0 h

/-- `takeWhile` over a block where the predicate holds. -/
theorem takeWhile_append_all {α : Type} (p : α → Bool) :
    ∀ (xs ys : List α), (∀ x ∈ xs, p x = true) →
    (xs ++ ys).takeWhile p = xs ++ ys.takeWhile p := by
  intro xs
  induction xs with
  | nil => intro ys _; rfl
  | cons x xs ih =>
    intro ys h
    simp only [List.cons_append, List.takeWhile_cons, h x (by simp), if_pos]
    rw [ih ys (fun a ha => h a (by simp [ha]))]

/-- `dropWhile` over a block where the predicate holds. -/
theorem dropWhile_append_all {α : Type} (p : α → Bool) :
    ∀ (xs ys : List α), (∀ x ∈ xs, p x = true) →
    (xs ++ ys).dropWhile p = ys.dropWhile p := by
  intro xs
  induction xs with
  | nil => intro ys _; rfl
  | cons x xs ih =>
    intro ys h
    simp only [List.cons_append, List.dropWhile_cons, h x (by simp), if_pos]
    rw [ih ys (fun a ha => h a (by simp [ha]))]

/-- Rendered digits all satisfy `isDigit`. -/
theorem renderDigits_isDigit (ds : List ℕ) (h : ∀ d ∈ ds, d < 10) :
    ∀ c ∈ renderDigits ds, c.isDigit = true := by
  intro c hc
  obtain ⟨d, hd, hcd⟩ := List.mem_map.mp hc
  subst hcd
  exact (digitChar_facts d (h d hd)).1

/-- A head character that a `%lf` scan positioned after its mantissa leaves
untouched: no digit, no dot, no whitespace, no exponent marker, and no
`x`/`X` (which after a lone leading zero would commit the scan to a
hexadecimal item).  Every unit string of the SI tables except the exa
symbol `E` satisfies this. -/
def expSafe : List Char → Bool
  | [] => true
  | c :: _ => !c.isDigit && !(c = '.') && !isSpaceC c && !(c = 'e') && !(c = 'E') &&
      !(c = 'x') && !(c = 'X')

/-- `headIs` on a digit head is false for any non-digit character. -/
theorem headIs_false_of_isDigit (x c : Char) (t : List Char)
    (hc : c.isDigit = true) (hx : x.isDigit = false) : headIs x (c :: t) = false := by
  have h : headIs x (c :: t) = decide (c = x) := rfl
  rw [h, decide_eq_false_iff_not]
  intro he
  rw [← he] at hx
  rw [hc] at hx
  exact absurd hx (by decide)

/-- `headIs '0'` on a rendered digit head decides the digit. -/
theorem headIs_zero_digit (d : ℕ) (hd : d < 10) (t : List Char) :
    headIs '0' (Nat.digitChar d :: t) = decide (d = 0) := by
  interval_cases d <;> rfl

/-- Both scanner layers on a rendered decimal body: the whitespace, sign,
integer-digit and fraction stages consume exactly the rendered literal,
leaving the exponent stage to run on the remainder `u` (the special forms
never fire on a digit head). -/
theorem scanLf_stages (sgn : Bool) (ip fp : List ℕ) (u : List Char)
    (hip : ip ≠ []) (hip10 : ∀ d ∈ ip, d < 10) (hfp10 : ∀ d ∈ fp, d < 10)
    (hu_dig : u.takeWhile Char.isDigit = [])
    (hu_dot : headIs '.' u = false)
    (hu_x : headIs 'x' u = false) (hu_X : headIs 'X' u = false) :
    scanLf ((if sgn then ['-'] else []) ++ renderDigits ip ++
        ((if fp = [] then [] else '.' :: renderDigits fp) ++ u)) =
      Option.map (fun p : ℚ × List Char =>
          (RVal.val ((if sgn then -1 else 1) * p.1), p.2))
        (scanExpStage ((msdVal ip : ℚ) + (msdVal fp : ℚ) / (10 : ℚ) ^ fp.length) u) := by
  obtain ⟨d0, ip1, hip0⟩ := List.exists_cons_of_ne_nil hip
  subst hip0
  have hd0 := digitChar_facts d0 (hip10 d0 (by simp))
  rw [List.append_assoc]
  -- the body after the optional sign
  set B : List Char := renderDigits (d0 :: ip1) ++
    ((if fp = [] then [] else '.' :: renderDigits fp) ++ u) with hB
  have hBhead : B = Nat.digitChar d0 :: (renderDigits ip1 ++
      ((if fp = [] then [] else '.' :: renderDigits fp) ++ u)) := by
    rw [hB, renderDigits, List.map_cons, List.cons_append]
    rfl
  -- stage 0: no leading whitespace
  have h_s0 : ((if sgn then ['-'] else []) ++ B).dropWhile isSpaceC =
      (if sgn then ['-'] else []) ++ B := by
    cases sgn with
    | true =>
      simp [List.dropWhile_cons, show isSpaceC '-' = false from rfl]
    | false =>
      rw [hBhead]
      simp [List.dropWhile_cons, hd0.2.1]
  -- tail after the integer digits
  set TAIL : List Char := (if fp = [] then [] else '.' :: renderDigits fp) ++ u with hT
  have h_u_drop : u.dropWhile Char.isDigit = u := by
    cases u with
    | nil => rfl
    | cons c t =>
      rw [List.takeWhile_cons] at hu_dig
      rw [List.dropWhile_cons]
      by_cases hc : c.isDigit = true
      · rw [if_pos hc] at hu_dig
        exact absurd hu_dig (by simp)
      · rw [if_neg hc]
  -- the tail begins with no digit
  have h_tail_take : TAIL.takeWhile Char.isDigit = [] := by
    rw [hT]
    by_cases hfp : fp = []
    · rw [if_pos hfp, List.nil_append, hu_dig]
    · rw [if_neg hfp, List.cons_append, List.takeWhile_cons, if_neg (by decide)]
  have h_tail_drop : TAIL.dropWhile Char.isDigit = TAIL := by
    rw [hT]
    by_cases hfp : fp = []
    · rw [if_pos hfp, List.nil_append, h_u_drop]
    · rw [if_neg hfp, List.cons_append, List.dropWhile_cons, if_neg (by decide)]
  -- sign stage
  have h_neg : headIs '-' ((if sgn then ['-'] else []) ++ B) = sgn := by
    cases sgn with
    | true => rfl
    | false =>
      simp only [if_neg Bool.false_ne_true, List.nil_append, hBhead, headIs]
      simp [hd0.2.2.1]
  have h_plus : headIs '+' ((if sgn then ['-'] else []) ++ B) = false := by
    cases sgn with
    | true => rfl
    | false =>
      simp only [if_neg Bool.false_ne_true, List.nil_append, hBhead, headIs]
      simp [hd0.2.2.2.1]
  have h_s1 : (if headIs '-' ((if sgn then ['-'] else []) ++ B) ||
      headIs '+' ((if sgn then ['-'] else []) ++ B)
      then ((if sgn then ['-'] else []) ++ B).tail else ((if sgn then ['-'] else []) ++ B)) = B := by
    rw [h_neg, h_plus, Bool.or_false]
    cases sgn with
    | true => simp
    | false => simp
  -- digit stages
  have h_ip_take : B.takeWhile Char.isDigit = renderDigits (d0 :: ip1) := by
    rw [hB, takeWhile_append_all Char.isDigit _ _ (renderDigits_isDigit _ hip10), h_tail_take,
      List.append_nil]
  have h_ip_drop : B.dropWhile Char.isDigit = TAIL := by
    rw [hB, dropWhile_append_all Char.isDigit _ _ (renderDigits_isDigit _ hip10), h_tail_drop]
  -- fraction stage
  have h_fp_take : (if headIs '.' TAIL then TAIL.tail.takeWhile Char.isDigit else []) =
      renderDigits fp := by
    by_cases hfp : fp = []
    · have hTu : TAIL = u := by rw [hT, if_pos hfp, List.nil_append]
      rw [hTu, hu_dot]
      subst hfp
      simp [renderDigits]
    · have hTd : TAIL = '.' :: (renderDigits fp ++ u) := by
        rw [hT, if_neg hfp, List.cons_append]
      rw [hTd]
      simp only [headIs, List.tail_cons, decide_True, if_pos]
      rw [takeWhile_append_all Char.isDigit _ _ (renderDigits_isDigit _ hfp10), hu_dig,
        List.append_nil]
  have h_s3 : (if headIs '.' TAIL then TAIL.tail.dropWhile Char.isDigit else TAIL) = u := by
    by_cases hfp : fp = []
    · have hTu : TAIL = u := by rw [hT, if_pos hfp, List.nil_append]
      rw [hTu, hu_dot]
      simp
    · have hTd : TAIL = '.' :: (renderDigits fp ++ u) := by
        rw [hT, if_neg hfp, List.cons_append]
      rw [hTd]
      simp only [headIs, List.tail_cons, decide_True, if_pos]
      rw [dropWhile_append_all Char.isDigit _ _ (renderDigits_isDigit _ hfp10), h_u_drop]
  -- the hexadecimal commit never fires on a rendered decimal body
  have h_hex : (headIs '0' B && (headIs 'x' B.tail || headIs 'X' B.tail)) = false := by
    by_cases hd00 : d0 = 0
    · have htail : B.tail = renderDigits ip1 ++ TAIL := by
        rw [hBhead]
        rfl
      have hxX : headIs 'x' B.tail = false ∧ headIs 'X' B.tail = false := by
        rw [htail]
        cases ip1 with
        | nil =>
          simp only [renderDigits, List.map_nil, List.nil_append]
          rw [hT]
          by_cases hfp : fp = []
          · rw [if_pos hfp, List.nil_append]
            exact ⟨hu_x, hu_X⟩
          · rw [if_neg hfp, List.cons_append]
            exact ⟨rfl, rfl⟩
        | cons d1 ip2 =>
          have hd1 := digitChar_facts d1 (hip10 d1 (by simp))
          rw [renderDigits, List.map_cons, List.cons_append]
          exact ⟨headIs_false_of_isDigit 'x' _ _ hd1.1 (by decide),
            headIs_false_of_isDigit 'X' _ _ hd1.1 (by decide)⟩
      rw [hxX.1, hxX.2]
      simp
    · have h0 : headIs '0' B = false := by
        rw [hBhead, headIs_zero_digit d0 (hip10 d0 (by simp)) _]
        exact decide_eq_false_iff_not.mpr hd00
      rw [h0]
      rfl
  -- the finite layer
  have hscan : scanNum ((if sgn then ['-'] else []) ++ B) =
      Option.map (fun p : ℚ × List Char => ((if sgn then -1 else 1) * p.1, p.2))
        (scanExpStage ((msdVal (d0 :: ip1) : ℚ) + (msdVal fp : ℚ) / (10 : ℚ) ^ fp.length) u) := by
    simp only [scanNum]
    rw [h_s0, h_s1, h_hex]
    simp only [Bool.false_eq_true, reduceIte]
    simp only [scanDecTail]
    rw [h_ip_take, h_ip_drop, h_fp_take, h_s3, h_neg]
    rw [if_neg (by simp [renderDigits] : ¬(renderDigits (d0 :: ip1) = [] ∧ renderDigits fp = []))]
    rw [digitsVal_renderDigits _ hip10, digitsVal_renderDigits _ hfp10]
    rw [renderDigits, List.length_map]
  -- the special forms never fire on a digit head
  have hi : headIs 'i' B = false := by
    rw [hBhead]
    exact headIs_false_of_isDigit 'i' _ _ hd0.1 (by decide)
  have hI : headIs 'I' B = false := by
    rw [hBhead]
    exact headIs_false_of_isDigit 'I' _ _ hd0.1 (by decide)
  have hn : headIs 'n' B = false := by
    rw [hBhead]
    exact headIs_false_of_isDigit 'n' _ _ hd0.1 (by decide)
  have hN : headIs 'N' B = false := by
    rw [hBhead]
    exact headIs_false_of_isDigit 'N' _ _ hd0.1 (by decide)
  have hunfold : scanLf ((if sgn then ['-'] else []) ++ B) =
      match scanNum ((if sgn then ['-'] else []) ++ B) with
      | some p => some (RVal.val p.1, p.2)
      | none => scanSpecialTop ((if sgn then ['-'] else []) ++ B) := rfl
  rw [hunfold, hscan]
  cases hE : scanExpStage ((msdVal (d0 :: ip1) : ℚ) + (msdVal fp : ℚ) / (10 : ℚ) ^ fp.length) u with
  | some p => rfl
  | none =>
    show scanSpecialTop ((if sgn then ['-'] else []) ++ B) = none
    simp only [scanSpecialTop]
    rw [h_s0, h_s1]
    simp only [scanSpecial, hi, hI, hn, hN]
    rfl

/-- The scanner consumes exactly a rendered decimal literal — optional
sign, integer digits, optional dot and fraction digits — and returns its
exact value together with the untouched remainder `u`. -/
theorem scanLf_render (sgn : Bool) (ip fp : List ℕ) (u : List Char)
    (hip : ip ≠ []) (hip10 : ∀ d ∈ ip, d < 10) (hfp10 : ∀ d ∈ fp, d < 10)
    (hu : expSafe u = true) :
    scanLf ((if sgn then ['-'] else []) ++ renderDigits ip ++
        ((if fp = [] then [] else '.' :: renderDigits fp) ++ u)) =
      some (RVal.val ((if sgn then -1 else 1) *
        ((msdVal ip : ℚ) + (msdVal fp : ℚ) / (10 : ℚ) ^ fp.length)), u) := by
  have hu_dig : u.takeWhile Char.isDigit = [] := by
    cases u with
    | nil => rfl
    | cons c t =>
      simp only [expSafe, Bool.and_eq_true, Bool.not_eq_true'] at hu
      rw [List.takeWhile_cons, if_neg (by rw [hu.1.1.1.1.1.1]; exact Bool.false_ne_true)]
  have hu_dot : headIs '.' u = false := by
    cases u with
    | nil => rfl
    | cons c t =>
      simp only [expSafe, Bool.and_eq_true, Bool.not_eq_true'] at hu
      have h : headIs '.' (c :: t) = decide (c = '.') := rfl
      rw [h]
      exact hu.1.1.1.1.1.2
  have hu_x : headIs 'x' u = false := by
    cases u with
    | nil => rfl
    | cons c t =>
      simp only [expSafe, Bool.and_eq_true, Bool.not_eq_true'] at hu
      have h : headIs 'x' (c :: t) = decide (c = 'x') := rfl
      rw [h]
      exact hu.1.2
  have hu_X : headIs 'X' u = false := by
    cases u with
    | nil => rfl
    | cons c t =>
      simp only [expSafe, Bool.and_eq_true, Bool.not_eq_true'] at hu
      have h : headIs 'X' (c :: t) = decide (c = 'X') := rfl
      rw [h]
      exact hu.2
  have he : headIs 'e' u = false := by
    cases u with
    | nil => rfl
    | cons c t =>
      simp only [expSafe, Bool.and_eq_true, Bool.not_eq_true'] at hu
      have h : headIs 'e' (c :: t) = decide (c = 'e') := rfl
      rw [h]
      exact hu.1.1.1.2
  have hEc : headIs 'E' u = false := by
    cases u with
    | nil => rfl
    | cons c t =>
      simp only [expSafe, Bool.and_eq_true, Bool.not_eq_true'] at hu
      have h : headIs 'E' (c :: t) = decide (c = 'E') := rfl
      rw [h]
      exact hu.1.1.2
  rw [scanLf_stages sgn ip fp u hip hip10 hfp10 hu_dig hu_dot hu_x hu_X]
  have hstage : scanExpStage ((msdVal ip : ℚ) + (msdVal fp : ℚ) / (10 : ℚ) ^ fp.length) u =
      some ((msdVal ip : ℚ) + (msdVal fp : ℚ) / (10 : ℚ) ^ fp.length, u) := by
    simp only [scanExpStage]
    rw [he, hEc]
    rfl
  rw [hstage]
  rfl

/-- On a rendered decimal literal directly followed by an exponent marker
with no scannable exponent digits, the `%lf` conversion is a matching
failure: the marker is pulled into the input item, which then is not a
valid literal, and there is no backtracking. -/
theorem scanLf_dangling (sgn : Bool) (ip fp : List ℕ) (e : Char) (w : List Char)
    (hip : ip ≠ []) (hip10 : ∀ d ∈ ip, d < 10) (hfp10 : ∀ d ∈ fp, d < 10)
    (he : e = 'e' ∨ e = 'E')
    (hw : (if headIs '-' w || headIs '+' w then w.tail else w).takeWhile Char.isDigit = []) :
    scanLf ((if sgn then ['-'] else []) ++ renderDigits ip ++
        ((if fp = [] then [] else '.' :: renderDigits fp) ++ (e :: w))) = none := by
  have hed : e.isDigit = false := by
    cases he with
    | inl h => rw [h]; rfl
    | inr h => rw [h]; rfl
  have hu_dig : (e :: w).takeWhile Char.isDigit = [] := by
    rw [List.takeWhile_cons, if_neg (by rw [hed]; exact Bool.false_ne_true)]
  have hu_dot : headIs '.' (e :: w) = false := by
    cases he with
    | inl h => rw [h]; rfl
    | inr h => rw [h]; rfl
  have hu_x : headIs 'x' (e :: w) = false := by
    cases he with
    | inl h => rw [h]; rfl
    | inr h => rw [h]; rfl
  have hu_X : headIs 'X' (e :: w) = false := by
    cases he with
    | inl h => rw [h]; rfl
    | inr h => rw [h]; rfl
  rw [scanLf_stages sgn ip fp (e :: w) hip hip10 hfp10 hu_dig hu_dot hu_x hu_X]
  have hstage : scanExpStage ((msdVal ip : ℚ) + (msdVal fp : ℚ) / (10 : ℚ) ^ fp.length)
      (e :: w) = none := by
    simp only [scanExpStage]
    have hc : (headIs 'e' (e :: w) || headIs 'E' (e :: w)) = true := by
      cases he with
      | inl h => rw [h]; rfl
      | inr h => rw [h]; rfl
    rw [hc, if_pos rfl]
    rw [show (e :: w).tail = w from rfl]
    rw [hw]
    rfl
  rw [hstage]
  rfl

/-- Parsing a fixed-notation rendering of the 6-digit mantissa `n` at
decimal exponent `X` recovers exactly `n·10^(X-5)`. -/
theorem fixedRender_parse (sgn : Bool) (n : ℕ) (X : ℕ) (u : List Char)
    (hn1 : 10 ^ 5 ≤ n) (hn2 : n < 10 ^ 6) (hX : X ≤ 5) (hu : expSafe u = true) :
    scanLf ((if sgn then ['-'] else []) ++ fixedRender n (X : ℤ) ++ u) =
      some (RVal.val ((if sgn then -1 else 1) * ((n : ℚ) * (10 : ℚ) ^ ((X : ℤ) - 5))), u) := by
  set ds := natDigitsM n with hds
  have hlen : ds.length = 6 := natDigitsM_length6 n hn1 hn2
  have hds10 : ∀ d ∈ ds, d < 10 := natDigitsM_lt n
  have hval : msdVal ds = n := natDigitsM_msdVal n
  set ip := ds.take (X + 1) with hip_def
  set fpFull := ds.drop (X + 1) with hfpFull_def
  set fp := stripZeros fpFull with hfp_def
  have hip_ne : ip ≠ [] := by
    apply List.ne_nil_of_length_pos
    rw [hip_def, List.length_take, hlen]
    omega
  have hip10 : ∀ d ∈ ip, d < 10 := fun d hd => hds10 d (List.take_subset _ _ hd)
  have hfp10 : ∀ d ∈ fp, d < 10 :=
    fun d hd => hds10 d (List.drop_subset _ _ (stripZeros_sub _ d hd))
  have hfr : fixedRender n (X : ℤ) =
      renderDigits ip ++ (if fp = [] then [] else '.' :: renderDigits fp) := by
    rw [fixedRender, if_pos (Int.ofNat_nonneg X)]
    rw [Int.toNat_natCast]
  have hstr : (if sgn then ['-'] else []) ++ fixedRender n (X : ℤ) ++ u =
      (if sgn then ['-'] else []) ++ renderDigits ip ++
        ((if fp = [] then [] else '.' :: renderDigits fp) ++ u) := by
    rw [hfr]
    simp [List.append_assoc]
  rw [hstr, scanLf_render sgn ip fp u hip_ne hip10 hfp10 hu]
  -- numeric identity
  have hsplit : ip ++ fpFull = ds := List.take_append_drop _ ds
  have hlen_ip : ip.length = X + 1 := by
    rw [hip_def, List.length_take, hlen]
    omega
  have hlen_fp : fpFull.length = 5 - X := by
    rw [hfpFull_def, List.length_drop, hlen]
    omega
  have hnat : msdVal ip * 10 ^ (5 - X) + msdVal fpFull = n := by
    rw [← hval, ← hsplit, msdVal_append, hlen_fp]
  obtain ⟨z, hz_len, hz_val⟩ := msdVal_stripZeros fpFull
  rw [← hfp_def] at hz_len hz_val
  have hzX : fp.length + z + X = 5 := by
    rw [hlen_fp] at hz_len
    omega
  have hq : ((msdVal ip : ℚ) * (10 : ℚ) ^ ((5 : ℤ) - X) + (msdVal fp : ℚ) * (10 : ℚ) ^ (z : ℤ)) =
      (n : ℚ) := by
    have h5X : ((5 : ℤ) - X) = ((5 - X : ℕ) : ℤ) := by omega
    rw [h5X, zpow_natCast, zpow_natCast]
    exact_mod_cast congrArg (fun m : ℕ => (m : ℚ)) (by rw [hz_val] at hnat; exact hnat)
  have hMN : (msdVal ip : ℚ) + (msdVal fp : ℚ) / (10 : ℚ) ^ fp.length =
      (n : ℚ) * (10 : ℚ) ^ ((X : ℤ) - 5) := by
    rw [← hq]
    have hten : (10 : ℚ) ≠ 0 := by norm_num
    rw [add_mul]
    rw [mul_assoc, mul_assoc, ← zpow_add₀ hten, ← zpow_add₀ hten]
    have he1 : (5 : ℤ) - X + ((X : ℤ) - 5) = 0 := by ring
    have he2 : (z : ℤ) + ((X : ℤ) - 5) = -(fp.length : ℤ) := by omega
    rw [he1, he2, zpow_zero, mul_one, zpow_neg, zpow_natCast]
    rw [div_eq_mul_inv]
  rw [hMN]

/-- A fixed-notation rendering directly followed by a bare exponent marker
(the exa unit symbol) is a matching failure of `%lf`: the marker is pulled
into the input item and no digit follows. -/
theorem fixedRender_dangling (sgn : Bool) (n : ℕ) (X : ℕ)
    (hn1 : 10 ^ 5 ≤ n) (hn2 : n < 10 ^ 6) (hX : X ≤ 5) :
    scanLf ((if sgn then ['-'] else []) ++ fixedRender n (X : ℤ) ++ ['E']) = none := by
  set ds := natDigitsM n with hds
  have hlen : ds.length = 6 := natDigitsM_length6 n hn1 hn2
  have hds10 : ∀ d ∈ ds, d < 10 := natDigitsM_lt n
  set ip := ds.take (X + 1) with hip_def
  set fpFull := ds.drop (X + 1) with hfpFull_def
  set fp := stripZeros fpFull with hfp_def
  have hip_ne : ip ≠ [] := by
    apply List.ne_nil_of_length_pos
    rw [hip_def, List.length_take, hlen]
    omega
  have hip10 : ∀ d ∈ ip, d < 10 := fun d hd => hds10 d (List.take_subset _ _ hd)
  have hfp10 : ∀ d ∈ fp, d < 10 :=
    fun d hd => hds10 d (List.drop_subset _ _ (stripZeros_sub _ d hd))
  have hfr : fixedRender n (X : ℤ) =
      renderDigits ip ++ (if fp = [] then [] else '.' :: renderDigits fp) := by
    rw [fixedRender, if_pos (Int.ofNat_nonneg X)]
    rw [Int.toNat_natCast]
  have hstr : (if sgn then ['-'] else []) ++ fixedRender n (X : ℤ) ++ ['E'] =
      (if sgn then ['-'] else []) ++ renderDigits ip ++
        ((if fp = [] then [] else '.' :: renderDigits fp) ++ ('E' :: [])) := by
    rw [hfr]
    simp [List.append_assoc]
  rw [hstr]
  exact scanLf_dangling sgn ip fp 'E' [] hip_ne hip10 hfp10 (Or.inr rfl) rfl

/-- Round trip through `%g` for a nonzero mantissa of magnitude in
`[1, 1000)`: the scanner recovers a rational within the
6-significant-digit rounding of the renderer (relative error at most
`1e-5`). -/
theorem gFormat_parse (m : ℚ) (hm0 : m ≠ 0) (hm1 : 1 ≤ |m|) (hm3 : |m| < 1000)
    (u : List Char) (hu : expSafe u = true) :
    ∃ r : ℚ, scanLf (gFormat m ++ u) = some (RVal.val r, u) ∧ |r - m| ≤ |m| / 100000 := by
  set a := |m| with ha
  have ha0 : 0 < a := abs_pos.mpr hm0
  set X := ratLog10 a with hX
  obtain ⟨hXlo, hXhi⟩ := ratLog10_bounds a ha0
  have hten0 : (10 : ℚ) ≠ 0 := by norm_num
  have hten1 : (1 : ℚ) < 10 := by norm_num
  have hX0 : 0 ≤ X := by
    by_contra hneg
    push_neg at hneg
    have hle : X + 1 ≤ 0 := by omega
    have : (10 : ℚ) ^ (X + 1) ≤ (10 : ℚ) ^ (0 : ℤ) :=
      zpow_le_zpow_right₀ (by norm_num) hle
    rw [zpow_zero] at this
    linarith
  have hX2 : X ≤ 2 := by
    by_contra hgt
    push_neg at hgt
    have h3 : (3 : ℤ) ≤ X := by omega
    have : (10 : ℚ) ^ (3 : ℤ) ≤ (10 : ℚ) ^ X := zpow_le_zpow_right₀ (by norm_num) h3
    have h1000 : (10 : ℚ) ^ (3 : ℤ) = 1000 := by decide
    linarith
  set y := a * (10 : ℚ) ^ (5 - X) with hy
  have hy_lo : (100000 : ℚ) ≤ y := by
    have h1 : (10 : ℚ) ^ X * (10 : ℚ) ^ (5 - X) ≤ a * (10 : ℚ) ^ (5 - X) :=
      mul_le_mul_of_nonneg_right hXlo (zpow_nonneg (by norm_num) _)
    rw [← zpow_add₀ hten0] at h1
    have he : X + (5 - X) = 5 := by ring
    rw [he] at h1
    have h5 : (10 : ℚ) ^ (5 : ℤ) = 100000 := by decide
    rw [h5] at h1
    exact h1
  have hy_hi : y < 1000000 := by
    have h1 : a * (10 : ℚ) ^ (5 - X) < (10 : ℚ) ^ (X + 1) * (10 : ℚ) ^ (5 - X) :=
      mul_lt_mul_of_pos_right hXhi (zpow_pos (by norm_num) _)
    rw [← zpow_add₀ hten0] at h1
    have he : X + 1 + (5 - X) = 6 := by ring
    rw [he] at h1
    have h6 : (10 : ℚ) ^ (6 : ℤ) = 1000000 := by decide
    rw [h6] at h1
    exact h1
  set n := rnd y with hn
  obtain ⟨hn_lo, hn_hi⟩ := rnd_range y hy_lo hy_hi
  have hn_err : |((n : ℤ) : ℚ) - y| ≤ 1 / 2 := rnd_err y
  set k := X.toNat with hk
  have hXk : X = (k : ℤ) := (Int.toNat_of_nonneg hX0).symm
  have hk2 : k ≤ 2 := by omega
  -- the rendered value is n * 10^(X-5) in both the carry and plain cases
  have hn_lo2 : (100000 : ℤ) ≤ n := by rw [hn]; exact hn_lo
  have hn_hi2 : n ≤ 1000000 := by rw [hn]; exact hn_hi
  have key : scanLf (gFormat m ++ u) =
      some (RVal.val ((if m < 0 then -1 else 1) * ((n : ℚ) * (10 : ℚ) ^ (X - 5))), u) := by
    have hpref0 : gFormat m = (if m < 0 then ['-'] else []) ++ gFormatPos a := by
      rw [gFormat, if_neg hm0]
    have hbool : (if m < 0 then ['-'] else []) = (if decide (m < 0) then ['-'] else []) := by
      by_cases h : m < 0 <;> simp [h]
    by_cases hcarry : n = 1000000
    · have hgp : gFormatPos a = fixedRender 100000 (X + 1) := by
        simp only [gFormatPos]
        rw [← hX, ← hy, ← hn, if_pos hcarry]
        rw [if_pos (⟨by show (-4 : ℤ) ≤ X + 1; omega, by show X + 1 < 6; omega⟩ :
          -4 ≤ ((100000 : ℕ), X + 1).2 ∧ ((100000 : ℕ), X + 1).2 < 6)]
      rw [hpref0, hgp, hbool]
      have hXk1 : X + 1 = ((k + 1 : ℕ) : ℤ) := by omega
      rw [hXk1]
      rw [fixedRender_parse (decide (m < 0)) 100000 (k + 1) u (by norm_num) (by norm_num)
        (by omega) hu]
      have hv : ((100000 : ℕ) : ℚ) * (10 : ℚ) ^ (((k + 1 : ℕ) : ℤ) - 5) =
          (n : ℚ) * (10 : ℚ) ^ (X - 5) := by
        have h5 : ((100000 : ℕ) : ℚ) = (10 : ℚ) ^ (5 : ℤ) := by decide
        have h6 : ((n : ℤ) : ℚ) = (10 : ℚ) ^ (6 : ℤ) := by rw [hcarry]; decide
        rw [h5, h6, ← zpow_add₀ hten0, ← zpow_add₀ hten0]
        congr 1
        omega
      rw [hv]
      by_cases h : m < 0 <;> simp [h]
    · have hgp : gFormatPos a = fixedRender n.toNat X := by
        simp only [gFormatPos]
        rw [← hX, ← hy, ← hn, if_neg hcarry]
        rw [if_pos (⟨by show (-4 : ℤ) ≤ X; omega, by show X < 6; omega⟩ :
          -4 ≤ (n.toNat, X).2 ∧ (n.toNat, X).2 < 6)]
      rw [hpref0, hgp, hbool, hXk]
      have hpow5 : (10 : ℕ) ^ 5 = 100000 := by norm_num
      have hpow6 : (10 : ℕ) ^ 6 = 1000000 := by norm_num
      rw [fixedRender_parse (decide (m < 0)) n.toNat k u (by omega) (by omega) (by omega) hu]
      have hc : ((n.toNat : ℕ) : ℚ) = ((n : ℤ) : ℚ) := by
        exact_mod_cast congrArg (fun z : ℤ => (z : ℚ)) (Int.toNat_of_nonneg (by omega))
      rw [hc, ← hXk]
      by_cases h : m < 0 <;> simp [h]
  refine ⟨(if m < 0 then -1 else 1) * ((n : ℚ) * (10 : ℚ) ^ (X - 5)), key, ?_⟩
  -- error bound
  have hay : a = y * (10 : ℚ) ^ (X - 5) := by
    rw [hy, mul_assoc, ← zpow_add₀ hten0]
    have he : 5 - X + (X - 5) = 0 := by ring
    rw [he, zpow_zero, mul_one]
  have hm_sign : m = (if m < 0 then -1 else 1) * a := by
    by_cases h : m < 0
    · rw [if_pos h, ha, abs_of_neg h]
      ring
    · rw [if_neg h, ha, abs_of_nonneg (by linarith [not_lt.mp h])]
      ring
  have herr : |(n : ℚ) * (10 : ℚ) ^ (X - 5) - a| ≤ a / 100000 := by
    have hp : |(10 : ℚ) ^ (X - 5)| = (10 : ℚ) ^ (X - 5) :=
      abs_of_pos (zpow_pos (by norm_num) _)
    have habs : |(n : ℚ) * (10 : ℚ) ^ (X - 5) - a| = |(n : ℚ) - y| * (10 : ℚ) ^ (X - 5) := by
      calc |(n : ℚ) * (10 : ℚ) ^ (X - 5) - a|
          = |(n : ℚ) * (10 : ℚ) ^ (X - 5) - y * (10 : ℚ) ^ (X - 5)| := by rw [← hay]
      _ = |((n : ℚ) - y) * (10 : ℚ) ^ (X - 5)| := by rw [sub_mul]
      _ = |(n : ℚ) - y| * (10 : ℚ) ^ (X - 5) := by rw [abs_mul, hp]
    have h2 : (10 : ℚ) ^ (X - 5) ≤ a / 100000 := by
      rw [div_eq_mul_inv]
      have h3 : (10 : ℚ) ^ (X - 5) = (10 : ℚ) ^ X * (10 : ℚ) ^ (-5 : ℤ) := by
        rw [show X - 5 = X + (-5 : ℤ) from by ring, zpow_add₀ hten0]
      rw [h3]
      have h4 : ((100000 : ℚ))⁻¹ = (10 : ℚ) ^ (-5 : ℤ) := by decide
      rw [h4]
      exact mul_le_mul_of_nonneg_right hXlo (zpow_nonneg (by norm_num) _)
    rw [habs]
    calc |(n : ℚ) - y| * (10 : ℚ) ^ (X - 5) ≤ (1 / 2) * (10 : ℚ) ^ (X - 5) :=
        mul_le_mul_of_nonneg_right hn_err (zpow_nonneg (by norm_num) _)
    _ ≤ (10 : ℚ) ^ (X - 5) := by
        have hnn := zpow_nonneg (show (0 : ℚ) ≤ 10 by norm_num) (X - 5)
        linarith
    _ ≤ a / 100000 := h2
  calc |(if m < 0 then -1 else 1) * ((n : ℚ) * (10 : ℚ) ^ (X - 5)) - m|
      = |(if m < 0 then -1 else 1) * ((n : ℚ) * (10 : ℚ) ^ (X - 5)) -
          (if m < 0 then -1 else 1) * a| := by rw [← hm_sign]
  _ = |(if m < 0 then (-1 : ℚ) else 1)| * |(n : ℚ) * (10 : ℚ) ^ (X - 5) - a| := by
      rw [← mul_sub, abs_mul]
  _ = |(n : ℚ) * (10 : ℚ) ^ (X - 5) - a| := by
      by_cases h : m < 0 <;> simp [h]
  _ ≤ a / 100000 := herr
  _ = |m| / 100000 := by rw [← ha]

/-- A `%g` rendering of a mantissa of magnitude in `[1, 1000)` directly
followed by the exa unit symbol `E` — exactly the strings `double_to_si`
produces on the band `[1e18, 1e21)` — fails to scan: the dangling `E` is
pulled into the `%lf` input item and the conversion is a matching
failure. -/
theorem gFormat_dangling (m : ℚ) (hm0 : m ≠ 0) (hm1 : 1 ≤ |m|) (hm3 : |m| < 1000) :
    scanLf (gFormat m ++ ['E']) = none := by
  set a := |m| with ha
  have ha0 : 0 < a := abs_pos.mpr hm0
  set X := ratLog10 a with hX
  obtain ⟨hXlo, hXhi⟩ := ratLog10_bounds a ha0
  have hten0 : (10 : ℚ) ≠ 0 := by norm_num
  have hX0 : 0 ≤ X := by
    by_contra hneg
    push_neg at hneg
    have hle : X + 1 ≤ 0 := by omega
    have : (10 : ℚ) ^ (X + 1) ≤ (10 : ℚ) ^ (0 : ℤ) :=
      zpow_le_zpow_right₀ (by norm_num) hle
    rw [zpow_zero] at this
    linarith
  have hX2 : X ≤ 2 := by
    by_contra hgt
    push_neg at hgt
    have h3 : (3 : ℤ) ≤ X := by omega
    have : (10 : ℚ) ^ (3 : ℤ) ≤ (10 : ℚ) ^ X := zpow_le_zpow_right₀ (by norm_num) h3
    have h1000 : (10 : ℚ) ^ (3 : ℤ) = 1000 := by decide
    linarith
  set y := a * (10 : ℚ) ^ (5 - X) with hy
  have hy_lo : (100000 : ℚ) ≤ y := by
    have h1 : (10 : ℚ) ^ X * (10 : ℚ) ^ (5 - X) ≤ a * (10 : ℚ) ^ (5 - X) :=
      mul_le_mul_of_nonneg_right hXlo (zpow_nonneg (by norm_num) _)
    rw [← zpow_add₀ hten0] at h1
    have he : X + (5 - X) = 5 := by ring
    rw [he] at h1
    have h5 : (10 : ℚ) ^ (5 : ℤ) = 100000 := by decide
    rw [h5] at h1
    exact h1
  have hy_hi : y < 1000000 := by
    have h1 : a * (10 : ℚ) ^ (5 - X) < (10 : ℚ) ^ (X + 1) * (10 : ℚ) ^ (5 - X) :=
      mul_lt_mul_of_pos_right hXhi (zpow_pos (by norm_num) _)
    rw [← zpow_add₀ hten0] at h1
    have he : X + 1 + (5 - X) = 6 := by ring
    rw [he] at h1
    have h6 : (10 : ℚ) ^ (6 : ℤ) = 1000000 := by decide
    rw [h6] at h1
    exact h1
  set n := rnd y with hn
  obtain ⟨hn_lo, hn_hi⟩ := rnd_range y hy_lo hy_hi
  set k := X.toNat with hk
  have hXk : X = (k : ℤ) := (Int.toNat_of_nonneg hX0).symm
  have hk2 : k ≤ 2 := by omega
  have hn_lo2 : (100000 : ℤ) ≤ n := by rw [hn]; exact hn_lo
  have hn_hi2 : n ≤ 1000000 := by rw [hn]; exact hn_hi
  have hpref0 : gFormat m = (if m < 0 then ['-'] else []) ++ gFormatPos a := by
    rw [gFormat, if_neg hm0]
  have hbool : (if m < 0 then ['-'] else []) = (if decide (m < 0) then ['-'] else []) := by
    by_cases h : m < 0 <;> simp [h]
  by_cases hcarry : n = 1000000
  · have hgp : gFormatPos a = fixedRender 100000 (X + 1) := by
      simp only [gFormatPos]
      rw [← hX, ← hy, ← hn, if_pos hcarry]
      rw [if_pos (⟨by show (-4 : ℤ) ≤ X + 1; omega, by show X + 1 < 6; omega⟩ :
        -4 ≤ ((100000 : ℕ), X + 1).2 ∧ ((100000 : ℕ), X + 1).2 < 6)]
    rw [hpref0, hgp, hbool]
    have hXk1 : X + 1 = ((k + 1 : ℕ) : ℤ) := by omega
    rw [hXk1]
    exact fixedRender_dangling (decide (m < 0)) 100000 (k + 1) (by norm_num) (by norm_num)
      (by omega)
  · have hgp : gFormatPos a = fixedRender n.toNat X := by
      simp only [gFormatPos]
      rw [← hX, ← hy, ← hn, if_neg hcarry]
      rw [if_pos (⟨by show (-4 : ℤ) ≤ X; omega, by show X < 6; omega⟩ :
        -4 ≤ (n.toNat, X).2 ∧ (n.toNat, X).2 < 6)]
    rw [hpref0, hgp, hbool, hXk]
    have hpow5 : (10 : ℕ) ^ 5 = 100000 := by norm_num
    have hpow6 : (10 : ℕ) ^ 6 = 1000000 := by norm_num
    exact fixedRender_dangling (decide (m < 0)) n.toNat k (by omega) (by omega) (by omega)

/-- Claim C7 counterexample: the round trip is not the identity up to
floating-point rounding.  For `x = 1.000001`, `double_to_si` renders
`10d` (the `%g` format keeps 6 significant digits), which parses back to
exactly 1; the relative error `1e-6` exceeds any floating-point rounding
bound (shown here against a generous `2⁻³⁰`). -/
theorem C7_roundtrip_counterexample :
    si_to_double (double_to_si (RVal.val (1000001 / 1000000))) = RVal.val 1 ∧
    (1 : ℚ) ≠ 1000001 / 1000000 ∧
    |(1 : ℚ) - 1000001 / 1000000| > 1 / 2 ^ 30 * |(1000001 / 1000000 : ℚ)| := by
  refine ⟨by decide, by norm_num, ?_⟩
  have he : |(1 : ℚ) - 1000001 / 1000000| = 1 / 1000000 := by
    rw [abs_sub_comm, abs_of_pos (by norm_num)]
    norm_num
  rw [he, abs_of_pos (by norm_num)]
  norm_num

/-- Claim C7 amended: for `1e-24 ≤ |q| ≤ 1e24` and `|q|` outside the exa
band `[1e18, 1e21)`, the parse of the format of `q` is a rational within
the 6-significant-digit rounding of the `%g` renderer: relative error at
most `1e-5`.  On the exa band the formatter emits `<mantissa>E` and the
parser's `%lf` conversion fails on the dangling exponent marker, so the
round trip is NaN — not any rational at all. -/
theorem C7_roundtrip (q : ℚ) (h1 : pow10 (-24) ≤ |q|) (h2 : |q| ≤ pow10 24) :
    ((|q| < pow10 18 ∨ pow10 21 ≤ |q|) →
      ∃ r : ℚ, si_to_double (double_to_si (RVal.val q)) = RVal.val r ∧
        |r - q| ≤ |q| / 100000) ∧
    (pow10 18 ≤ |q| → |q| < pow10 21 →
      si_to_double (double_to_si (RVal.val q)) = RVal.nan) := by
  have hq0 : q ≠ 0 := by
    intro h
    rw [h] at h1
    simp at h1
    have : (0 : ℚ) < pow10 (-24) := by decide
    linarith
  have haq0 : 0 < |q| := abs_pos.mpr hq0
  cases hscan : siScan si_divisors (RVal.fabs (RVal.val q)) with
  | none =>
    exfalso
    have hymem : ((['y'] : List Char), pow10 (-24)) ∈ si_divisors := by decide
    have hall := siScan_none_mem _ _ hscan _ hymem
    rw [show RVal.leb (RVal.val ((['y'], pow10 (-24)) : List Char × ℚ).2)
        (RVal.fabs (RVal.val q)) = decide (pow10 (-24) ≤ |q|) from rfl,
      decide_eq_true h1, decide_eq_true (by decide : ((['y'], pow10 (-24)) :
        List Char × ℚ).2 ≠ 1)] at hall
    simp at hall
  | some pr =>
    obtain ⟨u, d⟩ := pr
    obtain ⟨hmem, hle, hne1⟩ := siScan_mem _ _ _ _ hscan
    have hled : d ≤ |q| := of_decide_eq_true hle
    have hd0 : (0 : ℚ) < d := by
      have hfact : ∀ p ∈ si_divisors, (0 : ℚ) < p.2 := by decide
      exact hfact (u, d) hmem
    have hsorted : si_divisors.Pairwise (fun p r => r.2 < p.2) := by decide
    have hno1 : ∀ p ∈ si_divisors, p.2 ≠ (1 : ℚ) := by decide
    have hmax := siScan_max _ si_divisors hsorted hno1 u d hscan
    set m := q / d with hm
    have hm0 : m ≠ 0 := div_ne_zero hq0 (ne_of_gt hd0)
    have habs_m : |m| = |q| / d := by rw [hm, abs_div, abs_of_pos hd0]
    have hm1 : 1 ≤ |m| := by
      rw [habs_m, le_div_iff₀ hd0, one_mul]
      exact hled
    have hm3 : |m| < 1000 := by
      have hstep : ∀ p ∈ si_divisors, p.2 = pow10 24 ∨
          ∃ r ∈ si_divisors, p.2 < r.2 ∧ r.2 ≤ 1000 * p.2 := by decide
      rcases hstep (u, d) hmem with htop | ⟨r, hrmem, hrgt, hrle⟩
      · have hd24 : d = pow10 24 := htop
        rw [habs_m, div_lt_iff₀ hd0]
        calc |q| ≤ pow10 24 := h2
        _ = d := hd24.symm
        _ < 1000 * d := by nlinarith
      · have hqlt : |q| < r.2 := by
          by_contra hge
          push_neg at hge
          have := hmax r hrmem (decide_eq_true hge)
          simp only at this
          exact absurd this (not_le.mpr hrgt)
        rw [habs_m, div_lt_iff₀ hd0]
        calc |q| < r.2 := hqlt
        _ ≤ 1000 * d := hrle
    have hfmt : double_to_si (RVal.val q) = gFormat m ++ u := by
      simp only [double_to_si, hscan]
      rw [show RVal.div (RVal.val q) (RVal.val d) = RVal.val m from by
        simp [RVal.div, ne_of_gt hd0, hm]]
      rfl
    constructor
    · intro hband
      have hdE : d ≠ pow10 18 := by
        cases hband with
        | inl hlt =>
          intro hd18
          rw [hd18] at hled
          linarith
        | inr hge =>
          have hZmem : ((['Z'] : List Char), pow10 21) ∈ si_divisors := by decide
          have hd21 : pow10 21 ≤ d := by
            have hlebZ : RVal.leb (RVal.val (((['Z'], pow10 21) : List Char × ℚ)).2)
                (RVal.fabs (RVal.val q)) = true := by
              show decide (pow10 21 ≤ |q|) = true
              exact decide_eq_true hge
            exact hmax (['Z'], pow10 21) hZmem hlebZ
          intro hd18
          rw [hd18] at hd21
          exact absurd hd21 (by decide)
      have hu_safe : expSafe u = true := by
        have hfact : ∀ p ∈ si_divisors, p.2 ≠ pow10 18 → expSafe p.1 = true := by decide
        exact hfact (u, d) hmem hdE
      have hu_tok : (u.dropWhile isSpaceC).takeWhile (fun c => !isSpaceC c) = u := by
        have hfact : ∀ p ∈ si_divisors,
            (p.1.dropWhile isSpaceC).takeWhile (fun c => !isSpaceC c) = p.1 := by decide
        exact hfact (u, d) hmem
      have hu_ne : u ≠ [] := by
        have hfact : ∀ p ∈ si_divisors, p.1 ≠ [] := by decide
        exact hfact (u, d) hmem
      have hu_lookup : lookupUnit u = some d := by
        have hfact : ∀ p ∈ si_divisors, lookupUnit p.1 = some p.2 := by decide
        exact hfact (u, d) hmem
      obtain ⟨r0, hparse, herr0⟩ := gFormat_parse m hm0 hm1 hm3 u hu_safe
      refine ⟨r0 * d, ?_, ?_⟩
      · rw [hfmt]
        simp only [si_to_double, hparse]
        rw [hu_tok, if_neg hu_ne, hu_lookup]
        rfl
      · have hqmd : q = m * d := by
          rw [hm, div_mul_cancel₀]
          exact ne_of_gt hd0
        calc |r0 * d - q| = |r0 * d - m * d| := by rw [← hqmd]
        _ = |r0 - m| * d := by rw [← sub_mul, abs_mul, abs_of_pos hd0]
        _ ≤ (|m| / 100000) * d := mul_le_mul_of_nonneg_right herr0 hd0.le
        _ = |q| / 100000 := by
            rw [habs_m]
            field_simp
            ring
    · intro hlo hhi
      have hEmem : ((['E'] : List Char), pow10 18) ∈ si_divisors := by decide
      have hd18le : pow10 18 ≤ d := by
        have hlebE : RVal.leb (RVal.val (((['E'], pow10 18) : List Char × ℚ)).2)
            (RVal.fabs (RVal.val q)) = true := by
          show decide (pow10 18 ≤ |q|) = true
          exact decide_eq_true hlo
        exact hmax (['E'], pow10 18) hEmem hlebE
      have hdlt : d < pow10 21 := lt_of_le_of_lt hled hhi
      have hfactE : ∀ p ∈ si_divisors, pow10 18 ≤ p.2 → p.2 < pow10 21 →
          p = ((['E'] : List Char), pow10 18) := by decide
      have hEd := hfactE (u, d) hmem hd18le hdlt
      have hu_eq : u = ['E'] := congrArg Prod.fst hEd
      rw [hfmt, hu_eq]
      have hnone := gFormat_dangling m hm0 hm1 hm3
      simp only [si_to_double, hnone]

/-- Witness for the amended C7: the round trip at `q = 3/2` (rendered
`15d`, parsed back exactly; the band hypothesis holds since `3/2 < 1e18`). -/
theorem C7_roundtrip_witness :
    ∃ r : ℚ, si_to_double (double_to_si (RVal.val (3 / 2))) = RVal.val r ∧
      |r - 3 / 2| ≤ |(3 / 2 : ℚ)| / 100000 :=
  (C7_roundtrip (3 / 2) (by decide) (by decide)).1 (Or.inl (by decide))
